import Mathlib

/-!
Shallow embedding of the Moodle course scraper (src/main.py) and proofs about
its URL-collection, metadata-extraction and name-sanitisation logic.

Modelling conventions:
- HTML documents are modelled by the inductive type Node (element with tag,
  classes, attributes, children, or a text node).  BeautifulSoup queries are
  modelled as pre-order (document order) traversals over this tree:
  select with a class selector is a filter over the strict descendants,
  select with a descendant combinator (".cls tag") carries an
  "inside a matching ancestor" flag, select with a child combinator
  (".a > .b") carries a "parent matches" flag, find(tag) takes the first
  descendant with that tag, and find_all(tag, recursive=False) filters the
  direct children.  All of these return matches in document order, as
  BeautifulSoup does.
- Python strings are Lean String values; the string operations used by the
  code (strip, split, replace, lower, startswith, substring containment,
  percent decoding) are implemented here as structural functions over
  List Char so that concrete computations reduce inside the kernel.
  str.lower is modelled on the ASCII, Latin-1 and Cyrillic ranges, which
  cover every label the code compares; the whitespace class is the usual
  Python whitespace set.
- Python float() is modelled on rationals with the grammar
  sign, digits, optional fraction, optional exponent (the inf/nan and
  underscore forms are outside the model); float cannot represent the
  grade values of interest less exactly than ℚ does, and no rounding is at
  stake in the claims.
- Page navigation (page.goto) is modelled by an Option Node argument:
  none is a navigation failure (the Python code catches the exception),
  some soup is the parsed content of the fetched page.
- The recursion of parse_folder_tree is modelled with an explicit fuel
  parameter (structural on the fuel); the stabilisation theorem for fuel
  at least sizeOf of the node shows the Python recursion terminates and
  that the chosen fuel computes its limit value.
-/

/- ============================================================
   Python string primitives, modelled over List Char
   ============================================================ -/

/-- Python whitespace (str.strip, str.split defaults and the regex class \s). -/
def isPySpace (c : Char) : Bool :=
  c = ' ' || c = '\t' || c = '\n' || c = '\r' ||
  c.toNat = 0x0B || c.toNat = 0x0C ||
  (decide (0x1C ≤ c.toNat) && decide (c.toNat ≤ 0x1F)) ||
  c.toNat = 0x85 || c.toNat = 0xA0 || c.toNat = 0x1680 ||
  (decide (0x2000 ≤ c.toNat) && decide (c.toNat ≤ 0x200A)) ||
  c.toNat = 0x2028 || c.toNat = 0x2029 || c.toNat = 0x202F ||
  c.toNat = 0x205F || c.toNat = 0x3000

/-- Python str.lower, modelled on the ASCII, Latin-1 and Cyrillic ranges
(the only ranges appearing in the labels and URL schemes the code lowers). -/
def pyLowerChar (c : Char) : Char :=
  let n := c.toNat
  if 0x41 ≤ n ∧ n ≤ 0x5A then Char.ofNat (n + 32)
  else if 0xC0 ≤ n ∧ n ≤ 0xDE ∧ n ≠ 0xD7 then Char.ofNat (n + 32)
  else if 0x410 ≤ n ∧ n ≤ 0x42F then Char.ofNat (n + 32)
  else if 0x400 ≤ n ∧ n ≤ 0x40F then Char.ofNat (n + 80)
  else if n = 0x490 then Char.ofNat 0x491
  else c

def lowerChars (l : List Char) : List Char := l.map pyLowerChar

/-- Strip characters satisfying p from both ends (Python str.strip family). -/
def stripChars (p : Char → Bool) (l : List Char) : List Char :=
  ((l.dropWhile p).reverse.dropWhile p).reverse

def pyStrip (l : List Char) : List Char := stripChars isPySpace l

/-- Strip trailing characters satisfying p (Python str.rstrip). -/
def rstripChars (p : Char → Bool) (l : List Char) : List Char :=
  (l.reverse.dropWhile p).reverse

/-- Substring containment (the Python membership test on strings). -/
def containsSub (pat : List Char) : List Char → Bool
  | [] => pat.isEmpty
  | c :: rest => pat.isPrefixOf (c :: rest) || containsSub pat rest

/-- Worker for pySplit; the fuel is at least the length of the input, and
each step consumes at least one character, so the zero-fuel case is never
reached from the wrapper. -/
def pySplitGo (sep : List Char) : Nat → List Char → List (List Char)
  | _, [] => [[]]
  | 0, l => [l]
  | f+1, c :: rest =>
    if sep.isPrefixOf (c :: rest) then
      [] :: pySplitGo sep f ((c :: rest).drop sep.length)
    else
      match pySplitGo sep f rest with
      | [] => [[c]]
      | h :: t => (c :: h) :: t

/-- Python str.split(sep) for a nonempty separator. -/
def pySplit (sep l : List Char) : List (List Char) :=
  if sep.isEmpty then [l] else pySplitGo sep l.length l

/-- Python str.split(sep) on Strings. -/
def pySplitS (sep s : String) : List String :=
  (pySplit sep.data s.data).map String.mk

/-- Remove the first occurrence of pat (Python s.replace(pat, "", 1)).
For an empty pattern Python inserts the empty replacement, leaving s
unchanged. -/
def removeFirstGo (pat : List Char) : List Char → List Char
  | [] => []
  | c :: rest =>
    if pat.isPrefixOf (c :: rest) then (c :: rest).drop pat.length
    else c :: removeFirstGo pat rest

def removeFirst (pat l : List Char) : List Char :=
  if pat.isEmpty then l else removeFirstGo pat l

def intercalateChars (sep : List Char) : List (List Char) → List Char
  | [] => []
  | [x] => x
  | x :: y :: rest => x ++ sep ++ intercalateChars sep (y :: rest)

/-- The last component of a single-character split (Python s.split(c)[-1]). -/
def afterLast (c : Char) (l : List Char) : List Char :=
  (l.reverse.takeWhile (fun d => d ≠ c)).reverse

/- ============================================================
   UTF-8 decoding and percent decoding (urllib.parse.unquote)
   ============================================================ -/

/-- One UTF-8 sequence: the decoded codepoint and the remaining bytes, or
none where the byte sequence is invalid, overlong, surrogate or truncated,
exactly as bytes.decode("utf-8") rejects it. -/
def utf8Step (b : Nat) (bs : List Nat) : Option (Nat × List Nat) :=
  if b < 0x80 then some (b, bs)
  else if 0xC2 ≤ b ∧ b ≤ 0xDF then
    match bs with
    | b2 :: bs2 =>
      if 0x80 ≤ b2 ∧ b2 ≤ 0xBF then some ((b - 0xC0) * 0x40 + (b2 - 0x80), bs2)
      else none
    | _ => none
  else if b = 0xE0 then
    match bs with
    | b2 :: b3 :: bs3 =>
      if (0xA0 ≤ b2 ∧ b2 ≤ 0xBF) ∧ (0x80 ≤ b3 ∧ b3 ≤ 0xBF) then
        some ((b2 - 0x80) * 0x40 + (b3 - 0x80), bs3)
      else none
    | _ => none
  else if b = 0xED then
    match bs with
    | b2 :: b3 :: bs3 =>
      if (0x80 ≤ b2 ∧ b2 ≤ 0x9F) ∧ (0x80 ≤ b3 ∧ b3 ≤ 0xBF) then
        some (0xD000 + (b2 - 0x80) * 0x40 + (b3 - 0x80), bs3)
      else none
    | _ => none
  else if 0xE0 ≤ b ∧ b ≤ 0xEF then
    match bs with
    | b2 :: b3 :: bs3 =>
      if (0x80 ≤ b2 ∧ b2 ≤ 0xBF) ∧ (0x80 ≤ b3 ∧ b3 ≤ 0xBF) then
        some ((b - 0xE0) * 0x1000 + (b2 - 0x80) * 0x40 + (b3 - 0x80), bs3)
      else none
    | _ => none
  else if b = 0xF0 then
    match bs with
    | b2 :: b3 :: b4 :: bs4 =>
      if (0x90 ≤ b2 ∧ b2 ≤ 0xBF) ∧ (0x80 ≤ b3 ∧ b3 ≤ 0xBF) ∧ (0x80 ≤ b4 ∧ b4 ≤ 0xBF) then
        some ((b2 - 0x80) * 0x1000 + (b3 - 0x80) * 0x40 + (b4 - 0x80), bs4)
      else none
    | _ => none
  else if b = 0xF4 then
    match bs with
    | b2 :: b3 :: b4 :: bs4 =>
      if (0x80 ≤ b2 ∧ b2 ≤ 0x8F) ∧ (0x80 ≤ b3 ∧ b3 ≤ 0xBF) ∧ (0x80 ≤ b4 ∧ b4 ≤ 0xBF) then
        some (0x100000 + (b2 - 0x80) * 0x1000 + (b3 - 0x80) * 0x40 + (b4 - 0x80), bs4)
      else none
    | _ => none
  else if 0xF0 ≤ b ∧ b ≤ 0xF4 then
    match bs with
    | b2 :: b3 :: b4 :: bs4 =>
      if (0x80 ≤ b2 ∧ b2 ≤ 0xBF) ∧ (0x80 ≤ b3 ∧ b3 ≤ 0xBF) ∧ (0x80 ≤ b4 ∧ b4 ≤ 0xBF) then
        some ((b - 0xF0) * 0x40000 + (b2 - 0x80) * 0x1000 + (b3 - 0x80) * 0x40 +
          (b4 - 0x80), bs4)
      else none
    | _ => none
  else none

/-- Strict UTF-8 decoding loop; the fuel is at least the number of bytes and
each step consumes at least the lead byte, so the zero-fuel case is never
reached from the wrapper. -/
def utf8DecodeStrictGo : Nat → List Nat → Option (List Char)
  | _, [] => some []
  | 0, _ => none
  | f+1, b :: bs =>
    match utf8Step b bs with
    | none => none
    | some (v, rest) => (utf8DecodeStrictGo f rest).map (fun cs => Char.ofNat v :: cs)

/-- Strict UTF-8 decoding of a byte list: none on any invalid sequence,
exactly as bytes.decode("utf-8") raises. -/
def utf8DecodeStrict (bs : List Nat) : Option (List Char) :=
  utf8DecodeStrictGo bs.length bs

/-- UTF-8 decoding with one U+FFFD replacement per rejected lead byte
(a simplified model of bytes.decode("utf-8", errors="replace"), agreeing
with strict decoding on all valid input). -/
def utf8DecodeReplace : Nat → List Nat → List Char
  | _, [] => []
  | 0, _ => []
  | f+1, b :: bs =>
    match utf8Step b bs with
    | some (v, rest) => Char.ofNat v :: utf8DecodeReplace f rest
    | none => Char.ofNat 0xFFFD :: utf8DecodeReplace f bs

def isHexDigit (c : Char) : Bool :=
  c.isDigit || ( 'a' ≤ c && c ≤ 'f') || ( 'A' ≤ c && c ≤ 'F')

def hexVal (c : Char) : Nat :=
  if c.isDigit then c.toNat - 48
  else if 'a' ≤ c ∧ c ≤ 'f' then c.toNat - 87
  else if 'A' ≤ c ∧ c ≤ 'F' then c.toNat - 55
  else 0

/-- Collect a maximal leading run of %XX escapes as bytes. -/
def pctRun : List Char → List Nat × List Char
  | '%' :: h1 :: h2 :: rest =>
    if isHexDigit h1 && isHexDigit h2 then
      let (bs, r) := pctRun rest
      ((hexVal h1 * 16 + hexVal h2) :: bs, r)
    else ([], '%' :: h1 :: h2 :: rest)
  | l => ([], l)

/-- urllib.parse.unquote: maximal runs of %XX escapes are decoded as UTF-8
bytes (with replacement on error); everything else passes through. -/
def pyUnquoteGo : Nat → List Char → List Char
  | 0, l => l
  | _+1, [] => []
  | f+1, '%' :: rest =>
    match rest with
    | h1 :: h2 :: rest2 =>
      if isHexDigit h1 && isHexDigit h2 then
        let (bs, r) := pctRun rest2
        let allBytes := (hexVal h1 * 16 + hexVal h2) :: bs
        utf8DecodeReplace allBytes.length allBytes ++ pyUnquoteGo f r
      else '%' :: pyUnquoteGo f rest
    | _ => '%' :: pyUnquoteGo f rest
  | f+1, c :: rest => c :: pyUnquoteGo f rest

def pyUnquote (l : List Char) : List Char := pyUnquoteGo l.length l

/- ============================================================
   Rational model of Python float()
   ============================================================ -/

def digitsValGo (acc : Nat) : List Char → Nat
  | [] => acc
  | c :: rest => digitsValGo (acc * 10 + (c.toNat - 48)) rest

def digitsVal (l : List Char) : Nat := digitsValGo 0 l

/-- Python float() on the decimal grammar sign, digits, optional fraction,
optional exponent; none where float() raises ValueError. -/
def pyFloatChars? (l0 : List Char) : Option ℚ :=
  let l := pyStrip l0
  let sgn : ℚ := match l with
    | '-' :: _ => -1
    | _ => 1
  let l1 : List Char := match l with
    | '-' :: t => t
    | '+' :: t => t
    | _ => l
  let ip := l1.takeWhile Char.isDigit
  let r1 := l1.dropWhile Char.isDigit
  let fp : List Char := match r1 with
    | '.' :: t => t.takeWhile Char.isDigit
    | _ => []
  let r2 : List Char := match r1 with
    | '.' :: t => t.dropWhile Char.isDigit
    | _ => r1
  if ip.isEmpty && fp.isEmpty then none
  else
    let mant : ℚ := sgn * ((digitsVal ip : ℚ) + (digitsVal fp : ℚ) / ((10 : ℚ) ^ fp.length))
    match r2 with
    | [] => some mant
    | e :: t =>
      if e = 'e' ∨ e = 'E' then
        let esgn : Int := match t with
          | '-' :: _ => -1
          | _ => 1
        let t1 : List Char := match t with
          | '-' :: t2 => t2
          | '+' :: t2 => t2
          | _ => t
        let ed := t1.takeWhile Char.isDigit
        let r3 := t1.dropWhile Char.isDigit
        if ed.isEmpty ∨ ¬r3.isEmpty then none
        else some (mant * (10 : ℚ) ^ (esgn * (digitsVal ed : Int)))
      else none

/- ============================================================
   The DOM model
   ============================================================ -/

inductive Node where
  | text (s : String)
  | elem (tag : String) (classes : List String) (attrs : List (String × String))
      (children : List Node)

def Node.hasClass (c : String) : Node → Bool
  | .text _ => false
  | .elem _ classes _ _ => classes.contains c

def Node.tagIs (t : String) : Node → Bool
  | .text _ => false
  | .elem tag _ _ _ => tag == t

def Node.attr (k : String) : Node → Option String
  | .text _ => none
  | .elem _ _ attrs _ => attrs.lookup k

def Node.children : Node → List Node
  | .text _ => []
  | .elem _ _ _ cs => cs

mutual

/-- Size measure used as recursion fuel (sizeOf of the nested inductive has
no executable code, so the fuel is computed by this function instead). -/
def nodeSize : Node → Nat
  | .text _ => 1
  | .elem _ _ _ cs => 1 + nodeSizeList cs

def nodeSizeList : List Node → Nat
  | [] => 0
  | c :: cs => nodeSize c + nodeSizeList cs

end

mutual

/-- Strict descendants of a node in document (pre-)order, text nodes
included; BeautifulSoup find_all and select search this sequence. -/
def descNode : Node → List Node
  | .text _ => []
  | .elem _ _ _ cs => descList cs

def descList : List Node → List Node
  | [] => []
  | c :: cs => c :: descNode c ++ descList cs

end

mutual

/-- Text content of a node in document order (the strings BeautifulSoup
get_text concatenates). -/
def textsNode : Node → List String
  | .text s => [s]
  | .elem _ _ _ cs => textsList cs

def textsList : List Node → List String
  | [] => []
  | c :: cs => textsNode c ++ textsList cs

end

/-- BeautifulSoup get_text(" ", strip=True): each text fragment stripped,
empty fragments dropped, the rest joined with one space. -/
def getTextSp (n : Node) : String :=
  String.mk (intercalateChars [' ']
    (((textsNode n).map (fun s => pyStrip s.data)).filter (fun l => !l.isEmpty)))

mutual

/-- Matches of the descendant-combinator selector ".anc hit" inside a
subtree: inside says whether some strict ancestor already matched anc. -/
def selUnder (anc hit : Node → Bool) (inside : Bool) : Node → List Node
  | .text s => if inside && hit (.text s) then [.text s] else []
  | .elem t c a cs =>
    (if inside && hit (.elem t c a cs) then [.elem t c a cs] else []) ++
      selUnderList anc hit (inside || anc (.elem t c a cs)) cs

def selUnderList (anc hit : Node → Bool) (inside : Bool) : List Node → List Node
  | [] => []
  | c :: cs => selUnder anc hit inside c ++ selUnderList anc hit inside cs

end

mutual

/-- Matches of the child-combinator selector ".panc > hit" inside a
subtree: pm says whether the parent of the current node matches panc. -/
def selChild (panc hit : Node → Bool) (pm : Bool) : Node → List Node
  | .text s => if pm && hit (.text s) then [.text s] else []
  | .elem t c a cs =>
    (if pm && hit (.elem t c a cs) then [.elem t c a cs] else []) ++
      selChildList panc hit (panc (.elem t c a cs)) cs

def selChildList (panc hit : Node → Bool) (pm : Bool) : List Node → List Node
  | [] => []
  | c :: cs => selChild panc hit pm c ++ selChildList panc hit pm cs

end

/- ============================================================
   URL resolution, the shared dedup-append step
   ============================================================ -/

def MOODLE_BASE : String := "https://moodle.elct.lnu.edu.ua"

/-- Host-relative URLs are resolved against the base origin
(the startswith slash idiom of the code). -/
def resolveUrl (href : String) : String :=
  if ['/'].isPrefixOf href.data then MOODLE_BASE ++ href else href

/-- Append u unless it is already present (the membership-guarded append idiom). -/
def pushNew (acc : List String) (u : String) : List String :=
  if u ∈ acc then acc else acc ++ [u]

/-- Left fold of pushNew: dedup-append a candidate sequence onto a list. -/
def dedupAppend (init : List String) (cands : List String) : List String :=
  cands.foldl pushNew init

def dedupFirst (cands : List String) : List String := dedupAppend [] cands

/- ============================================================
   parse_folder_tree
   ============================================================ -/

/-- An anchor matched by the selector a[href*=(pluginfile.php)]. -/
def isPluginAnchor (n : Node) : Bool :=
  n.tagIs "a" &&
    (match n.attr "href" with
     | some h => containsSub "pluginfile.php".data h.data
     | none => false)

def selectPluginAnchors (n : Node) : List Node :=
  (descNode n).filter isPluginAnchor

/-- One iteration of the anchor loop in recurse (and the identical loop over
attached files in parse_assign_page): skip falsy hrefs, resolve, append if
new. -/
def stepAnchor (files : List String) (a : Node) : List String :=
  match a.attr "href" with
  | none => files
  | some href =>
    if href.data.isEmpty then files
    else pushNew files (resolveUrl href)

def addAnchors (n : Node) (files : List String) : List String :=
  (selectPluginAnchors n).foldl stepAnchor files

/-- The candidate URL an anchor contributes, before deduplication. -/
def anchorHrefCand (a : Node) : Option String :=
  match a.attr "href" with
  | none => none
  | some href =>
    if href.data.isEmpty then none
    else some (resolveUrl href)

/-- The node select(".ygtvchildren > .ygtvitem") recurses into.  As in
BeautifulSoup, the child combinator is matched anywhere inside the current
subtree, not only one level down. -/
def selectCGI (n : Node) : List Node :=
  selChildList (Node.hasClass "ygtvchildren") (Node.hasClass "ygtvitem")
    (n.hasClass "ygtvchildren") n.children

/-- The recurse closure of parse_folder_tree, with structural fuel; fuel at
least sizeOf of the node computes the limit of the Python recursion
(see the stabilisation theorem). -/
def recurseFuel : Nat → Node → List String → List String
  | 0, _, files => files
  | f+1, n, files =>
    (selectCGI n).foldl (fun acc c => recurseFuel f c acc) (addAnchors n files)

/-- The raw candidate sequence the same traversal scans, duplicates kept. -/
def collectFuel : Nat → Node → List String
  | 0, _ => []
  | f+1, n =>
    (selectPluginAnchors n).filterMap anchorHrefCand ++
      (selectCGI n).flatMap (fun c => collectFuel f c)

/-- The nodes visited by the recursion, with multiplicity, in call order. -/
def visitsFuel : Nat → Node → List Node
  | 0, _ => []
  | f+1, n => n :: (selectCGI n).flatMap (fun c => visitsFuel f c)

/-- The roots recursed from inside one .foldertree container: direct child
div.ygtvitem nodes, else any descendant .ygtvitem. -/
def folderRoots (tree : Node) : List Node :=
  let roots := tree.children.filter (fun c => c.tagIs "div" && c.hasClass "ygtvitem")
  if roots.isEmpty then (descNode tree).filter (Node.hasClass "ygtvitem") else roots

def parse_folder_tree (soup : Node) : List String :=
  ((descNode soup).filter (Node.hasClass "foldertree")).foldl
    (fun files tree =>
      (folderRoots tree).foldl (fun fs r => recurseFuel (nodeSize r) r fs) files)
    []

/-- The candidate sequence parse_folder_tree dedups, in scan order. -/
def folderCands (soup : Node) : List String :=
  ((descNode soup).filter (Node.hasClass "foldertree")).flatMap
    (fun tree => (folderRoots tree).flatMap (fun r => collectFuel (nodeSize r) r))

/-- All (resolved) pluginfile anchor URLs of a fragment, in document order,
duplicates kept. -/
def allPluginLinks (soup : Node) : List String :=
  (selectPluginAnchors soup).filterMap anchorHrefCand

/- ============================================================
   collect_activity_files
   ============================================================ -/

/-- One call of add_if_pluginfile: strip, drop empty, placeholder and
javascript targets, resolve, keep only pluginfile URLs not already seen. -/
def scanCand (raw : Option String) : Option String :=
  match raw with
  | none => none
  | some raw =>
    let u := String.mk (pyStrip raw.data)
    if u.data.isEmpty || ['#'].isPrefixOf u.data ||
        "javascript:".data.isPrefixOf (lowerChars u.data) then none
    else
      let u := resolveUrl u
      if containsSub "pluginfile.php".data u.data then some u else none

def addIfPluginfile (urls : List String) (raw : Option String) : List String :=
  match scanCand raw with
  | none => urls
  | some u => pushNew urls u

def isMediaTag (n : Node) : Bool :=
  n.tagIs "iframe" || n.tagIs "img" || n.tagIs "source" || n.tagIs "video" || n.tagIs "audio"

/-- Step 2 of collect_activity_files: every a[href] then every media src
containing the pluginfile marker, deduplicated in scan order. -/
def pluginScan (soup : Node) : List String :=
  let anchors := (descNode soup).filter (Node.tagIs "a")
  let medias := (descNode soup).filter isMediaTag
  medias.foldl (fun acc t => addIfPluginfile acc (t.attr "src"))
    (anchors.foldl (fun acc a => addIfPluginfile acc (a.attr "href")) [])

/-- The candidate sequence pluginScan dedups. -/
def scanCands (soup : Node) : List String :=
  ((descNode soup).filter (Node.tagIs "a")).filterMap (fun a => scanCand (a.attr "href")) ++
    ((descNode soup).filter isMediaTag).filterMap (fun t => scanCand (t.attr "src"))

/-- The anchors of the step-3 fallback selector
".resourceworkaround a, .activityinstance a, .region-main a", which
BeautifulSoup returns in document order over the union of the three
descendant selectors. -/
def inFallbackRegion (n : Node) : Bool :=
  n.hasClass "resourceworkaround" || n.hasClass "activityinstance" || n.hasClass "region-main"

def fallbackAnchors (soup : Node) : List Node :=
  selUnder inFallbackRegion (Node.tagIs "a") false soup

/-- The href a fallback candidate contributes, if acceptable. -/
def acceptableHref (a : Node) : Option String :=
  match a.attr "href" with
  | none => none
  | some h =>
    let h := String.mk (pyStrip h.data)
    if h.data.isEmpty || ['#'].isPrefixOf h.data ||
        "javascript:".data.isPrefixOf (lowerChars h.data) then none
    else some (resolveUrl h)

/-- The step-3 loop: first acceptable candidate, then break. -/
def fallbackLoop : List Node → Option String
  | [] => none
  | a :: rest =>
    match acceptableHref a with
    | some u => some u
    | none => fallbackLoop rest

/-- Steps 3 to 6 of collect_activity_files (runs when the page was fetched). -/
def collectFromPage (soup : Node) (activity_url : String) : List String :=
  if !((descNode soup).filter (Node.hasClass "foldertree")).isEmpty then
    let urls := parse_folder_tree soup
    if !urls.isEmpty then urls
    else
      let urls := pluginScan soup
      if !urls.isEmpty then urls
      else
        match fallbackLoop (fallbackAnchors soup) with
        | some u => [u]
        | none => [activity_url]
  else
    let urls := pluginScan soup
    if !urls.isEmpty then urls
    else
      match fallbackLoop (fallbackAnchors soup) with
      | some u => [u]
      | none => [activity_url]

/-- collect_activity_files; nav is the navigated page (none on a navigation
failure, which the code catches and turns into an empty result). -/
def collect_activity_files (activity_url : String) (nav : Option Node) : List String :=
  if activity_url.data.isEmpty || activity_url = "#" ||
      !("http".data.isPrefixOf activity_url.data) then []
  else if containsSub "pluginfile.php".data activity_url.data then [activity_url]
  else
    match nav with
    | none => []
    | some soup => collectFromPage soup activity_url

/- ============================================================
   parse_assign_page
   ============================================================ -/

structure AssignMeta where
  start_at : Option String
  due_at : Option String
  cutoff_at : Option String
  attempt : Option String
  submission_status : Option String
  grading_status : Option String
  time_remaining : Option String
  last_modified : Option String
  files : List String
  grade_text : Option String
  grade_raw : Option ℚ
  grade_max : Option ℚ

/-- The meta dictionary as initialised (and as read back from the bare {}
returned on a navigation failure: a missing key reads as None via .get). -/
def emptyMeta : AssignMeta :=
  ⟨none, none, none, none, none, none, none, none, [], none, none, none⟩

def containsS (pat s : String) : Bool := containsSub pat.data s.data

def lowerS (s : String) : String := String.mk (lowerChars s.data)

/-- One direct-child div of the .activity-dates block. -/
def activityDatesStep (m : AssignMeta) (d : Node) : AssignMeta :=
  match (descNode d).find? (Node.tagIs "strong") with
  | none => m
  | some strong =>
    let label_raw := getTextSp strong
    let label := lowerS label_raw
    let full_text := getTextSp d
    let date_text := String.mk
      (stripChars (fun c => c = ' ' || c = ':') (removeFirst label_raw.data full_text.data))
    if date_text.data.isEmpty then m
    else if containsS "початок приймання" label ∧ m.start_at = none then
      { m with start_at := some date_text }
    else if containsS "термін спливає" label ∧ m.due_at = none then
      { m with due_at := some date_text }
    else m

/-- One row of the combined dates scan (the .dates divs followed by the
status-table rows); the three checks are independent ifs in the code. -/
def dateRowStep (m : AssignMeta) (row : Node) : AssignMeta :=
  let text_raw := getTextSp row
  let text := lowerS text_raw
  let m :=
    if (containsS "доступно з" text || containsS "доступне з" text ||
        containsS "available from" text) ∧ m.start_at = none then
      { m with start_at := some text_raw }
    else m
  let m :=
    if (containsS "термін здачі" text || containsS "due date" text) ∧ m.due_at = none then
      { m with due_at := some text_raw }
    else m
  if (containsS "остання можливість здачі" text || containsS "cut-off" text) ∧
      m.cutoff_at = none then
    { m with cutoff_at := some text_raw }
  else m

/-- One row of the submission status table: an if/elif chain with no
None guard, so every matching row assigns its field. -/
def statusStep (m : AssignMeta) (row : Node) : AssignMeta :=
  match (descNode row).find? (Node.tagIs "th"), (descNode row).find? (Node.tagIs "td") with
  | some th, some td =>
    let label := lowerS (getTextSp th)
    let value := getTextSp td
    if containsS "спроба номер" label then { m with attempt := some value }
    else if containsS "статус роботи" label then { m with submission_status := some value }
    else if containsS "статус оцінення" label then { m with grading_status := some value }
    else if containsS "залишилося часу" label then { m with time_remaining := some value }
    else if containsS "востаннє змінено" label then { m with last_modified := some value }
    else m
  | _, _ => m

def statusRows (soup : Node) : List Node :=
  selUnder (Node.hasClass "submissionstatustable") (Node.tagIs "tr") false soup

def feedbackRows (soup : Node) : List Node :=
  selUnder (Node.hasClass "feedbacktable") (Node.tagIs "tr") false soup

def dateRows (soup : Node) : List Node :=
  (match ((descNode soup).filter (Node.hasClass "dates")).head? with
   | none => []
   | some db => (descNode db).filter (Node.tagIs "div")) ++ statusRows soup

/-- Python _normalize_number: strip, drop non-breaking and plain spaces,
comma to dot, then float(). -/
def normalize_number (text : String) : Option ℚ :=
  let t := pyStrip text.data
  let t := t.map (fun c => if c.toNat = 0xA0 then ' ' else c)
  let t := t.filter (fun c => c ≠ ' ')
  let t := t.map (fun c => if c = ',' then '.' else c)
  pyFloatChars? t

/-- The grade pair derived from the grade cell text: only a two-part "/"
split is parsed, each side independently. -/
def gradeOfText (t : String) : Option ℚ × Option ℚ :=
  match pySplit "/".data t.data with
  | [a, b] => (normalize_number (String.mk a), normalize_number (String.mk b))
  | _ => (none, none)

/-- The value cell of a feedback row if the row has th and td and the th
label contains the grade label; the loop breaks on the first such row. -/
def gradeRowMatch (row : Node) : Option String :=
  match (descNode row).find? (Node.tagIs "th"), (descNode row).find? (Node.tagIs "td") with
  | some th, some td =>
    if containsS "оцінка" (lowerS (getTextSp th)) then some (getTextSp td) else none
  | _, _ => none

/-- The attached-files loop of parse_assign_page (the same code shape as the
anchor loop of recurse, started from an empty list). -/
def assignFiles (soup : Node) : List String :=
  (selectPluginAnchors soup).foldl stepAnchor []

/-- The candidate sequence assignFiles dedups. -/
def fileCands (soup : Node) : List String :=
  (selectPluginAnchors soup).filterMap anchorHrefCand

def activityDatesDivs (soup : Node) : List Node :=
  match ((descNode soup).filter (Node.hasClass "activity-dates")).head? with
  | none => []
  | some blk => blk.children.filter (Node.tagIs "div")

/-- parse_assign_page; nav is none when page.goto raised, in which case the
code returns the bare {} dictionary, every key of which reads as None. -/
def parse_assign_page (nav : Option Node) : AssignMeta :=
  match nav with
  | none => emptyMeta
  | some soup =>
    let m := emptyMeta
    let m := (activityDatesDivs soup).foldl activityDatesStep m
    let m := (dateRows soup).foldl dateRowStep m
    let m := (statusRows soup).foldl statusStep m
    let m := { m with files := assignFiles soup }
    match (feedbackRows soup).findSome? gradeRowMatch with
    | none => m
    | some v =>
      { m with grade_text := some v,
               grade_raw := (gradeOfText v).1, grade_max := (gradeOfText v).2 }

/- ============================================================
   fix_encoding, filename_from_content_disposition, safe_name
   ============================================================ -/

def artifactChar (c : Char) : Bool :=
  c = 'Ð' || c = 'Ñ' || c = 'â' || c = '€'

/-- fix_encoding: if mis-decoding artifacts are visible, reinterpret the
characters as Latin-1 bytes and re-decode them as UTF-8; on any failure
(including characters outside Latin-1) keep the original. -/
def fixEncodingChars (f : List Char) : List Char :=
  if f.isEmpty then f
  else if f.any artifactChar then
    if f.all (fun c => c.toNat < 256) then
      match utf8DecodeStrict (f.map Char.toNat) with
      | some g => g
      | none => f
    else f
  else f

def fix_encoding (s : String) : String := String.mk (fixEncodingChars s.data)

def skipWS (l : List Char) : List Char := l.dropWhile isPySpace

/-- Case-insensitive literal match, returning the rest of the input. -/
def matchLitCI (lit l : List Char) : Option (List Char) :=
  if lit.length ≤ l.length ∧ lowerChars (l.take lit.length) = lowerChars lit then
    some (l.drop lit.length)
  else none

def aposChar : Char := Char.ofNat 39

/-- The literal UTF-8 marker of the extended form, two apostrophes included. -/
def utf8Marker : List Char := "UTF-8".data ++ [aposChar, aposChar]

/-- Match of the extended-form regex at the current position
(filename, star, optional spaces around =, the UTF-8 marker, then a
nonempty greedy run of non-semicolon characters as the capture). -/
def matchExtAt (l : List Char) : Option (List Char) := do
  let r1 ← matchLitCI ("filename*".data) l
  let r3 ← matchLitCI ("=".data) (skipWS r1)
  let r5 ← matchLitCI utf8Marker (skipWS r3)
  let cap := r5.takeWhile (fun c => c ≠ ';')
  if cap.isEmpty then none else some cap

/-- Match of the quoted-form regex at the current position. -/
def matchQuotedAt (l : List Char) : Option (List Char) := do
  let r1 ← matchLitCI ("filename".data) l
  let r3 ← matchLitCI ("=".data) (skipWS r1)
  let r5 ← matchLitCI ("\"".data) (skipWS r3)
  let cap := r5.takeWhile (fun c => c ≠ '"')
  if cap.isEmpty then none
  else if ['"'].isPrefixOf (r5.drop cap.length) then some cap else none

/-- Match of the unquoted-form regex at the current position. -/
def matchPlainAt (l : List Char) : Option (List Char) := do
  let r1 ← matchLitCI ("filename".data) l
  let r3 ← matchLitCI ("=".data) (skipWS r1)
  let cap := r3.takeWhile (fun c => c ≠ ';')
  if cap.isEmpty then none else some cap

/-- re.search: try the pattern at each position, leftmost match wins. -/
def searchPat (patAt : List Char → Option (List Char)) : List Char → Option (List Char)
  | [] => patAt []
  | c :: rest =>
    match patAt (c :: rest) with
    | some cap => some cap
    | none => searchPat patAt rest

def filename_from_content_disposition (cd : Option String) : Option String :=
  match cd with
  | none => none
  | some cd0 =>
    if cd0.data.isEmpty then none
    else
      let cdl := pyStrip cd0.data
      let fname? : Option (List Char) :=
        match searchPat matchExtAt cdl with
        | some cap => some (pyUnquote cap)
        | none =>
          match searchPat matchQuotedAt cdl with
          | some cap => some (stripChars (fun c => c = '"') (pyStrip cap))
          | none =>
            match searchPat matchPlainAt cdl with
            | some cap => some (stripChars (fun c => c = '"') (pyStrip cap))
            | none => none
      match fname? with
      | none => none
      | some f =>
        let f := afterLast '\\' (afterLast '/' f)
        let f := fixEncodingChars f
        if f.isEmpty then none else some (String.mk f)

/-- The name actually used by download_file before fix_encoding and
sanitisation: cd_name or default_name or "file". -/
def resolveDownloadName (cd : Option String) (default_name : String) : String :=
  match filename_from_content_disposition cd with
  | some n => n
  | none => if default_name.data.isEmpty then "file" else default_name

/-- Collapse each maximal run of whitespace to a single space
(re.sub of one or more whitespace characters with one space). -/
def collapseWS : List Char → List Char
  | [] => []
  | [c] => if isPySpace c then [' '] else [c]
  | c :: d :: rest =>
    if isPySpace c then
      if isPySpace d then collapseWS (d :: rest)
      else ' ' :: collapseWS (d :: rest)
    else c :: collapseWS (d :: rest)

def badNameChar (c : Char) : Bool :=
  c = ':' || c = '*' || c = '?' || c = '"' || c = '<' || c = '>' || c = '|'

/-- The sanitisation core of safe_name before the empty check and the
truncation: strip, non-breaking space to space, slashes to dashes, drop
the forbidden characters, collapse whitespace runs. -/
def safeCore (s : String) : List Char :=
  let l := pyStrip s.data
  let l := l.map (fun c => if c.toNat = 0xA0 then ' ' else c)
  let l := l.map (fun c => if c = '/' || c = '\\' then '-' else c)
  let l := l.filter (fun c => !badNameChar c)
  collapseWS l

def safe_name (name : String) (max_len : Nat) : String :=
  let l := safeCore name
  let l := if l.isEmpty then "untitled".data else l
  let l := if max_len < l.length then rstripChars isPySpace (l.take max_len) else l
  String.mk l

/- ============================================================
   Candidate-value functions used to characterise the folds
   ============================================================ -/

/-- The start_at candidate an .activity-dates child div offers. -/
def adStartVal (d : Node) : Option String :=
  match (descNode d).find? (Node.tagIs "strong") with
  | none => none
  | some strong =>
    let label_raw := getTextSp strong
    let label := lowerS label_raw
    let full_text := getTextSp d
    let date_text := String.mk
      (stripChars (fun c => c = ' ' || c = ':') (removeFirst label_raw.data full_text.data))
    if date_text.data.isEmpty then none
    else if containsS "початок приймання" label then some date_text
    else none

/-- The start_at candidate a dates/status row offers. -/
def rowStartVal (row : Node) : Option String :=
  let text_raw := getTextSp row
  let text := lowerS text_raw
  if containsS "доступно з" text || containsS "доступне з" text ||
      containsS "available from" text then some text_raw
  else none

/-- The due_at candidate a dates/status row offers. -/
def rowDueVal (row : Node) : Option String :=
  let text_raw := getTextSp row
  let text := lowerS text_raw
  if containsS "термін здачі" text || containsS "due date" text then some text_raw
  else none

/-- The cutoff_at candidate a dates/status row offers. -/
def rowCutoffVal (row : Node) : Option String :=
  let text_raw := getTextSp row
  let text := lowerS text_raw
  if containsS "остання можливість здачі" text || containsS "cut-off" text then
    some text_raw
  else none

/-- The (label, value) pair of a status-table row with both th and td. -/
def statusCell (row : Node) : Option (String × String) :=
  match (descNode row).find? (Node.tagIs "th"), (descNode row).find? (Node.tagIs "td") with
  | some th, some td => some (lowerS (getTextSp th), getTextSp td)
  | _, _ => none

/-- The value a status row assigns to attempt (first branch of the chain). -/
def attemptVal (row : Node) : Option String :=
  (statusCell row).bind (fun p =>
    if containsS "спроба номер" p.1 then some p.2 else none)

def submissionVal (row : Node) : Option String :=
  (statusCell row).bind (fun p =>
    if !containsS "спроба номер" p.1 && containsS "статус роботи" p.1 then some p.2
    else none)

def gradingVal (row : Node) : Option String :=
  (statusCell row).bind (fun p =>
    if !containsS "спроба номер" p.1 && !containsS "статус роботи" p.1 &&
        containsS "статус оцінення" p.1 then some p.2
    else none)

def timeRemVal (row : Node) : Option String :=
  (statusCell row).bind (fun p =>
    if !containsS "спроба номер" p.1 && !containsS "статус роботи" p.1 &&
        !containsS "статус оцінення" p.1 && containsS "залишилося часу" p.1 then some p.2
    else none)

def lastModVal (row : Node) : Option String :=
  (statusCell row).bind (fun p =>
    if !containsS "спроба номер" p.1 && !containsS "статус роботи" p.1 &&
        !containsS "статус оцінення" p.1 && !containsS "залишилося часу" p.1 &&
        containsS "востаннє змінено" p.1 then some p.2
    else none)

/-- No two adjacent whitespace characters. -/
def noAdjSpaceB : List Char → Bool
  | [] => true
  | [_] => true
  | c :: d :: rest => !(isPySpace c && isPySpace d) && noAdjSpaceB (d :: rest)

/- ============================================================
   Concrete documents for the counterexamples and witnesses
   ============================================================ -/

/-- A status-table row labelled with the attempt label and the given value. -/
def ceAttemptRow (v : String) : Node :=
  .elem "tr" [] [] [
    .elem "th" [] [] [ .text "спроба номер" ],
    .elem "td" [] [] [ .text v ] ]

/-- An assignment page whose status table holds two attempt rows. -/
def ceSoupC1 : Node :=
  .elem "html" [] [] [
    .elem "table" ["submissionstatustable"] [] [ ceAttemptRow "1", ceAttemptRow "2" ] ]

/-- A folder tree with an item nested two levels below the root item. -/
def ceInnerItem : Node :=
  .elem "div" ["ygtvitem"] [("id", "inner")] []

def ceMidItem : Node :=
  .elem "div" ["ygtvitem"] [("id", "mid")] [
    .elem "div" ["ygtvchildren"] [] [ ceInnerItem ] ]

def ceRootItem : Node :=
  .elem "div" ["ygtvitem"] [("id", "root")] [
    .elem "div" ["ygtvchildren"] [] [ ceMidItem ] ]

def hasId (v : String) (n : Node) : Bool := n.attr "id" == some v

/-- A page whose .region-main anchor precedes its .resourceworkaround anchor
in document order. -/
def ceSoupC5 : Node :=
  .elem "html" [] [] [
    .elem "div" ["region-main"] [] [
      .elem "a" [] [("href", "/u1")] [ .text "one" ] ],
    .elem "div" ["resourceworkaround"] [] [
      .elem "a" [] [("href", "/u2")] [ .text "two" ] ] ]

/- ============================================================
   Lemmas about the dedup-append fold
   ============================================================ -/

theorem mem_pushNew {acc : List String} {u x : String} :
    x ∈ pushNew acc u ↔ x ∈ acc ∨ x = u := by
  unfold pushNew
  split
  · rename_i h
    constructor
    · exact Or.inl
    · intro hx
      rcases hx with hx | rfl
      · exact hx
      · exact h
  · simp [List.mem_append]

theorem nodup_pushNew {acc : List String} (h : acc.Nodup) (u : String) :
    (pushNew acc u).Nodup := by
  unfold pushNew
  split
  · exact h
  · rename_i hn
    simp [List.nodup_append, h, hn]

theorem dedupAppend_append (init l1 l2 : List String) :
    dedupAppend init (l1 ++ l2) = dedupAppend (dedupAppend init l1) l2 := by
  unfold dedupAppend
  rw [List.foldl_append]

theorem nodup_dedupAppend : ∀ (l init : List String), init.Nodup → (dedupAppend init l).Nodup
  | [], _, h => h
  | u :: l, init, h => nodup_dedupAppend l _ (nodup_pushNew h u)

theorem mem_dedupAppend : ∀ (l init : List String) (x : String),
    x ∈ dedupAppend init l ↔ x ∈ init ∨ x ∈ l
  | [], init, x => by simp [dedupAppend]
  | u :: l, init, x => by
    have h := mem_dedupAppend l (pushNew init u) x
    simp only [dedupAppend, List.foldl_cons] at h ⊢
    rw [h, mem_pushNew]
    simp [List.mem_cons]
    tauto

theorem nodup_dedupFirst (l : List String) : (dedupFirst l).Nodup :=
  nodup_dedupAppend l [] List.nodup_nil

theorem mem_dedupFirst {l : List String} {x : String} :
    x ∈ dedupFirst l ↔ x ∈ l := by
  unfold dedupFirst
  rw [mem_dedupAppend]
  simp

/-- Fusing a fold of conditional pushNew steps into dedupAppend of the
filterMap of the per-element candidates. -/
theorem foldl_opt_eq_dedupAppend {α : Type} (f : α → Option String) :
    ∀ (l : List α) (init : List String),
      l.foldl (fun acc x => match f x with | none => acc | some u => pushNew acc u) init
        = dedupAppend init (l.filterMap f)
  | [], _ => rfl
  | x :: l, init => by
    simp only [List.foldl_cons, List.filterMap_cons]
    cases hfx : f x with
    | none => simpa using foldl_opt_eq_dedupAppend f l init
    | some u =>
      simp only [dedupAppend, List.foldl_cons]
      exact foldl_opt_eq_dedupAppend f l (pushNew init u)

theorem foldl_congr_fn {α β : Type} {f g : β → α → β} (h : ∀ b a, f b a = g b a) :
    ∀ (l : List α) (b : β), l.foldl f b = l.foldl g b
  | [], _ => rfl
  | x :: l, b => by rw [List.foldl_cons, List.foldl_cons, h, foldl_congr_fn h l]

/-- Folding dedupAppend of per-element candidate blocks is dedupAppend of
the concatenation. -/
theorem foldl_dedupAppend {α : Type} (g : α → List String) :
    ∀ (l : List α) (init : List String),
      l.foldl (fun acc x => dedupAppend acc (g x)) init = dedupAppend init (l.flatMap g)
  | [], _ => rfl
  | x :: l, init => by
    simp only [List.foldl_cons, List.flatMap_cons, dedupAppend_append]
    exact foldl_dedupAppend g l _

theorem stepAnchor_eq (files : List String) (a : Node) :
    stepAnchor files a =
      match anchorHrefCand a with
      | none => files
      | some u => pushNew files u := by
  unfold stepAnchor anchorHrefCand
  cases a.attr "href" with
  | none => rfl
  | some href =>
    by_cases h : href.data.isEmpty <;> simp [h]

theorem addAnchors_eq (n : Node) (files : List String) :
    addAnchors n files = dedupAppend files ((selectPluginAnchors n).filterMap anchorHrefCand) := by
  unfold addAnchors
  rw [← foldl_opt_eq_dedupAppend anchorHrefCand]
  exact foldl_congr_fn stepAnchor_eq _ _

theorem assignFiles_eq (soup : Node) :
    assignFiles soup = dedupFirst (fileCands soup) :=
  addAnchors_eq soup []

theorem addIfPluginfile_eq (urls : List String) (raw : Option String) :
    addIfPluginfile urls raw =
      match scanCand raw with
      | none => urls
      | some u => pushNew urls u := rfl

theorem pluginScan_eq (soup : Node) :
    pluginScan soup = dedupFirst (scanCands soup) := by
  unfold pluginScan scanCands dedupFirst
  rw [dedupAppend_append]
  rw [← foldl_opt_eq_dedupAppend (fun a : Node => scanCand (a.attr "href"))]
  rw [← foldl_opt_eq_dedupAppend (fun t : Node => scanCand (t.attr "src"))]
  rfl

theorem recurseFuel_eq : ∀ (f : Nat) (n : Node) (files : List String),
    recurseFuel f n files = dedupAppend files (collectFuel f n)
  | 0, _, _ => rfl
  | f+1, n, files => by
    simp only [recurseFuel, collectFuel, dedupAppend_append, ← addAnchors_eq]
    rw [← foldl_dedupAppend (fun c => collectFuel f c) (selectCGI n) (addAnchors n files)]
    exact foldl_congr_fn (fun b c => recurseFuel_eq f c b) _ _

theorem parse_folder_tree_eq (soup : Node) :
    parse_folder_tree soup = dedupFirst (folderCands soup) := by
  unfold parse_folder_tree folderCands dedupFirst
  rw [← foldl_dedupAppend (fun tree => (folderRoots tree).flatMap (fun r => collectFuel (nodeSize r) r))]
  apply foldl_congr_fn
  intro files tree
  rw [← foldl_dedupAppend (fun r => collectFuel (nodeSize r) r)]
  exact foldl_congr_fn (fun fs r => recurseFuel_eq (nodeSize r) r fs) _ _

/- ============================================================
   Size and membership lemmas for the tree traversals
   ============================================================ -/

theorem nodeSize_pos : ∀ n : Node, 1 ≤ nodeSize n
  | .text _ => Nat.le_refl 1
  | .elem _ _ _ cs => by simp only [nodeSize]; omega

theorem nodeSizeList_mem : ∀ (cs : List Node) (c : Node), c ∈ cs → nodeSize c ≤ nodeSizeList cs
  | [], _, h => by cases h
  | x :: cs, c, h => by
    rcases List.mem_cons.mp h with rfl | h
    · simp only [nodeSizeList]; omega
    · have := nodeSizeList_mem cs c h
      have := nodeSize_pos x
      simp only [nodeSizeList]; omega

theorem nodeSize_children_lt : ∀ (n : Node) (c : Node), c ∈ n.children → nodeSize c < nodeSize n
  | .text _, _, h => by simp [Node.children] at h
  | .elem t cl a cs, c, h => by
    simp only [Node.children] at h
    have := nodeSizeList_mem cs c h
    simp only [nodeSize]; omega

theorem mem_selChildList {panc hit : Node → Bool} {pm : Bool} :
    ∀ {cs : List Node} {x : Node}, x ∈ selChildList panc hit pm cs →
      ∃ c ∈ cs, x ∈ selChild panc hit pm c := by
  intro cs
  induction cs with
  | nil => intro x hx; simp [selChildList] at hx
  | cons c cs ih =>
    intro x hx
    simp only [selChildList, List.mem_append] at hx
    rcases hx with hx | hx
    · exact ⟨c, List.mem_cons_self c cs, hx⟩
    · obtain ⟨d, hd, hxd⟩ := ih hx
      exact ⟨d, List.mem_cons_of_mem c hd, hxd⟩

theorem mem_selChild_cases {panc hit : Node → Bool} :
    ∀ {n : Node} {pm : Bool} {x : Node}, x ∈ selChild panc hit pm n →
      x = n ∨ ∃ c ∈ n.children, x ∈ selChild panc hit (panc n) c := by
  intro n pm x hx
  cases n with
  | text s =>
    simp only [selChild] at hx
    split at hx
    · simp at hx; exact Or.inl hx
    · simp at hx
  | elem t cl a cs =>
    simp only [selChild, List.mem_append] at hx
    rcases hx with hx | hx
    · split at hx
      · simp at hx; exact Or.inl hx
      · simp at hx
    · obtain ⟨c, hc, hxc⟩ := mem_selChildList hx
      exact Or.inr ⟨c, hc, hxc⟩

theorem selChild_size_le {panc hit : Node → Bool} :
    ∀ (k : Nat) (n : Node), nodeSize n ≤ k → ∀ (pm : Bool) (x : Node),
      x ∈ selChild panc hit pm n → nodeSize x ≤ nodeSize n := by
  intro k
  induction k with
  | zero => intro n hn; have := nodeSize_pos n; omega
  | succ k ih =>
    intro n hn pm x hx
    rcases mem_selChild_cases hx with rfl | ⟨c, hc, hxc⟩
    · exact Nat.le_refl _
    · have h1 := nodeSize_children_lt n c hc
      have h2 := ih c (by omega) _ x hxc
      omega

theorem selectCGI_size_lt {n x : Node} (h : x ∈ selectCGI n) : nodeSize x < nodeSize n := by
  unfold selectCGI at h
  obtain ⟨c, hc, hxc⟩ := mem_selChildList h
  have h1 := selChild_size_le (nodeSize c) c (Nat.le_refl _) _ x hxc
  have h2 := nodeSize_children_lt n c hc
  omega

/-- Fuel congruence: any two fuels at least nodeSize n give the same result,
which is the termination statement for the Python recursion. -/
theorem recurseFuel_congr :
    ∀ (k : Nat) (n : Node), nodeSize n ≤ k →
      ∀ (f g : Nat), nodeSize n ≤ f → nodeSize n ≤ g →
        ∀ files, recurseFuel f n files = recurseFuel g n files := by
  intro k
  induction k with
  | zero => intro n h; have := nodeSize_pos n; omega
  | succ k ih =>
    intro n hn f g hf hg files
    have hpos := nodeSize_pos n
    obtain ⟨f1, rfl⟩ : ∃ f1, f = f1 + 1 := ⟨f - 1, by omega⟩
    obtain ⟨g1, rfl⟩ : ∃ g1, g = g1 + 1 := ⟨g - 1, by omega⟩
    simp only [recurseFuel]
    have haux : ∀ (cs : List Node), (∀ c ∈ cs, c ∈ selectCGI n) → ∀ acc,
        cs.foldl (fun acc c => recurseFuel f1 c acc) acc
          = cs.foldl (fun acc c => recurseFuel g1 c acc) acc := by
      intro cs
      induction cs with
      | nil => intro _ acc; rfl
      | cons c cs ihcs =>
        intro hsub acc
        simp only [List.foldl_cons]
        have hclt : nodeSize c < nodeSize n :=
          selectCGI_size_lt (hsub c (List.mem_cons_self c cs))
        rw [ih c (by omega) f1 g1 (by omega) (by omega) acc]
        exact ihcs (fun d hd => hsub d (List.mem_cons_of_mem c hd)) _
    exact haux (selectCGI n) (fun c hc => hc) _

/- ============================================================
   Descendant transitivity and subset lemmas
   ============================================================ -/

theorem mem_descList_iff : ∀ {cs : List Node} {x : Node},
    x ∈ descList cs ↔ ∃ c ∈ cs, x = c ∨ x ∈ descNode c := by
  intro cs
  induction cs with
  | nil => intro x; simp [descList]
  | cons c cs ih =>
    intro x
    constructor
    · intro hx
      simp only [descList, List.mem_cons, List.mem_append] at hx
      rcases hx with (heq | hx) | hx
      · exact ⟨c, List.mem_cons_self c cs, Or.inl heq⟩
      · exact ⟨c, List.mem_cons_self c cs, Or.inr hx⟩
      · obtain ⟨d, hd, hxd⟩ := ih.mp hx
        exact ⟨d, List.mem_cons_of_mem c hd, hxd⟩
    · rintro ⟨d, hd, hxd⟩
      simp only [descList, List.mem_cons, List.mem_append]
      rcases List.mem_cons.mp hd with heq | hd
      · subst heq
        tauto
      · have hmem := ih.mpr ⟨d, hd, hxd⟩
        tauto

theorem mem_descNode_of_children {n c : Node} (h : c ∈ n.children) : c ∈ descNode n := by
  cases n with
  | text s => simp [Node.children] at h
  | elem t cl a cs =>
    simp only [Node.children] at h
    simp only [descNode]
    exact mem_descList_iff.mpr ⟨c, h, Or.inl rfl⟩

theorem descNode_trans :
    ∀ (k : Nat) (n : Node), nodeSize n ≤ k →
      ∀ {c x : Node}, c ∈ descNode n → x ∈ descNode c → x ∈ descNode n := by
  intro k
  induction k with
  | zero => intro n h; have := nodeSize_pos n; omega
  | succ k ih =>
    intro n hn c x hc hx
    cases n with
    | text s => simp [descNode] at hc
    | elem t cl a cs =>
      simp only [descNode] at hc ⊢
      obtain ⟨d, hd, hcd⟩ := mem_descList_iff.mp hc
      have hlt : nodeSize d < nodeSize (Node.elem t cl a cs) :=
        nodeSize_children_lt _ _ (by simpa [Node.children] using hd)
      rcases hcd with heq | hcd
      · subst heq
        exact mem_descList_iff.mpr ⟨c, hd, Or.inr hx⟩
      · have hxd := ih d (by omega) hcd hx
        exact mem_descList_iff.mpr ⟨d, hd, Or.inr hxd⟩

theorem mem_selChild_desc {panc hit : Node → Bool} :
    ∀ (k : Nat) (n : Node), nodeSize n ≤ k → ∀ (pm : Bool) (x : Node),
      x ∈ selChild panc hit pm n → x = n ∨ x ∈ descNode n := by
  intro k
  induction k with
  | zero => intro n h; have := nodeSize_pos n; omega
  | succ k ih =>
    intro n hn pm x hx
    rcases mem_selChild_cases hx with rfl | ⟨c, hc, hxc⟩
    · exact Or.inl rfl
    · have hlt := nodeSize_children_lt n c hc
      rcases ih c (by omega) _ x hxc with rfl | hxd
      · exact Or.inr (mem_descNode_of_children hc)
      · exact Or.inr (descNode_trans (nodeSize n) n (Nat.le_refl _)
          (mem_descNode_of_children hc) hxd)

theorem selectCGI_mem_desc {n x : Node} (h : x ∈ selectCGI n) : x ∈ descNode n := by
  unfold selectCGI at h
  obtain ⟨c, hc, hxc⟩ := mem_selChildList h
  rcases mem_selChild_desc (nodeSize c) c (Nat.le_refl _) _ x hxc with rfl | hxd
  · exact mem_descNode_of_children hc
  · exact descNode_trans (nodeSize n) n (Nat.le_refl _) (mem_descNode_of_children hc) hxd

theorem mem_visitsFuel : ∀ (f : Nat) (n x : Node), x ∈ visitsFuel f n → x = n ∨ x ∈ descNode n
  | 0, n, x, h => by simp [visitsFuel] at h
  | f+1, n, x, h => by
    simp only [visitsFuel, List.mem_cons, List.mem_flatMap] at h
    rcases h with rfl | ⟨c, hc, hxc⟩
    · exact Or.inl rfl
    · have hcd := selectCGI_mem_desc hc
      rcases mem_visitsFuel f c x hxc with rfl | hxd
      · exact Or.inr hcd
      · exact Or.inr (descNode_trans (nodeSize n) n (Nat.le_refl _) hcd hxd)

theorem mem_collectFuel : ∀ (f : Nat) (n : Node) (u : String), u ∈ collectFuel f n →
    ∃ a : Node, a ∈ descNode n ∧ isPluginAnchor a = true ∧ anchorHrefCand a = some u
  | 0, _, _, h => by simp [collectFuel] at h
  | f+1, n, u, h => by
    simp only [collectFuel, List.mem_append, List.mem_flatMap, List.mem_filterMap] at h
    rcases h with ⟨a, ha, hcand⟩ | ⟨c, hc, hcu⟩
    · unfold selectPluginAnchors at ha
      rw [List.mem_filter] at ha
      exact ⟨a, ha.1, ha.2, hcand⟩
    · obtain ⟨a, had, hpa, hcand⟩ := mem_collectFuel f c u hcu
      have hcd := selectCGI_mem_desc hc
      exact ⟨a, descNode_trans (nodeSize n) n (Nat.le_refl _) hcd had, hpa, hcand⟩

theorem mem_folderRoots {tree r : Node} (h : r ∈ folderRoots tree) : r ∈ descNode tree := by
  simp only [folderRoots] at h
  split at h
  · exact (List.mem_filter.mp h).1
  · exact mem_descNode_of_children (List.mem_filter.mp h).1

theorem folderCands_sub (soup : Node) : ∀ u ∈ folderCands soup, u ∈ allPluginLinks soup := by
  intro u hu
  unfold folderCands at hu
  rw [List.mem_flatMap] at hu
  obtain ⟨tree, htree, hu⟩ := hu
  rw [List.mem_flatMap] at hu
  obtain ⟨r, hr, hu⟩ := hu
  have htd : tree ∈ descNode soup := (List.mem_filter.mp htree).1
  have hrd : r ∈ descNode soup :=
    descNode_trans (nodeSize soup) soup (Nat.le_refl _) htd (mem_folderRoots hr)
  obtain ⟨a, had, hpa, hcand⟩ := mem_collectFuel (nodeSize r) r u hu
  have hasoup : a ∈ descNode soup :=
    descNode_trans (nodeSize soup) soup (Nat.le_refl _) hrd had
  unfold allPluginLinks selectPluginAnchors
  rw [List.mem_filterMap]
  exact ⟨a, List.mem_filter.mpr ⟨hasoup, hpa⟩, hcand⟩

theorem nodup_length_le_dedupFirst {l m : List String} (hn : l.Nodup)
    (hsub : ∀ x ∈ l, x ∈ m) : l.length ≤ (dedupFirst m).length := by
  have h1 : l.toFinset.card = l.length := List.toFinset_card_of_nodup hn
  have h2 : (dedupFirst m).toFinset.card = (dedupFirst m).length :=
    List.toFinset_card_of_nodup (nodup_dedupFirst m)
  rw [← h1, ← h2]
  apply Finset.card_le_card
  intro x hx
  rw [List.mem_toFinset] at hx ⊢
  exact mem_dedupFirst.mpr (hsub x hx)

/- ============================================================
   First-writer and last-writer fold lemmas
   ============================================================ -/

theorem getLast?_cons_or {α : Type} (x : α) (l : List α) :
    (x :: l).getLast? = Option.or l.getLast? (some x) := by
  cases l with
  | nil => rfl
  | cons y t =>
    rw [List.getLast?_cons_cons]
    have h : ((y :: t).getLast?).isSome = true := List.getLast?_isSome.mpr (by simp)
    cases hy : (y :: t).getLast? with
    | none => rw [hy] at h; simp at h
    | some z => rfl

theorem head?_append_or {α : Type} (l1 l2 : List α) :
    (l1 ++ l2).head? = Option.or l1.head? l2.head? := by
  cases l1 <;> rfl

theorem foldl_lastWriter {α β : Type} (proj : β → Option String) (step : β → α → β)
    (val : α → Option String) (hstep : ∀ m r, proj (step m r) = Option.or (val r) (proj m)) :
    ∀ (rows : List α) (m : β),
      proj (rows.foldl step m) = Option.or (rows.filterMap val).getLast? (proj m)
  | [], m => by simp
  | r :: rows, m => by
    rw [List.foldl_cons, foldl_lastWriter proj step val hstep rows (step m r), hstep,
      List.filterMap_cons]
    cases hv : val r with
    | none => simp
    | some v => rw [getLast?_cons_or, Option.or_assoc]

theorem foldl_firstWriter {α β : Type} (proj : β → Option String) (step : β → α → β)
    (val : α → Option String) (hstep : ∀ m r, proj (step m r) = Option.or (proj m) (val r)) :
    ∀ (rows : List α) (m : β),
      proj (rows.foldl step m) = Option.or (proj m) (rows.filterMap val).head?
  | [], m => by simp
  | r :: rows, m => by
    rw [List.foldl_cons, foldl_firstWriter proj step val hstep rows (step m r), hstep,
      List.filterMap_cons]
    cases hv : val r with
    | none => simp
    | some v => rw [Option.or_assoc]; simp

theorem foldl_proj_const {α β γ : Type} (proj : β → γ) (step : β → α → β)
    (h : ∀ m r, proj (step m r) = proj m) :
    ∀ (l : List α) (m : β), proj (l.foldl step m) = proj m
  | [], _ => rfl
  | r :: l, m => by rw [List.foldl_cons, foldl_proj_const proj step h l, h]

/- ============================================================
   Field behaviour of the three metadata extraction steps
   ============================================================ -/

theorem statusStep_fields (m : AssignMeta) (r : Node) :
    (statusStep m r).attempt = Option.or (attemptVal r) m.attempt ∧
    (statusStep m r).submission_status = Option.or (submissionVal r) m.submission_status ∧
    (statusStep m r).grading_status = Option.or (gradingVal r) m.grading_status ∧
    (statusStep m r).time_remaining = Option.or (timeRemVal r) m.time_remaining ∧
    (statusStep m r).last_modified = Option.or (lastModVal r) m.last_modified ∧
    (statusStep m r).start_at = m.start_at ∧
    (statusStep m r).due_at = m.due_at ∧
    (statusStep m r).cutoff_at = m.cutoff_at ∧
    (statusStep m r).files = m.files ∧
    (statusStep m r).grade_text = m.grade_text ∧
    (statusStep m r).grade_raw = m.grade_raw ∧
    (statusStep m r).grade_max = m.grade_max := by
  simp only [statusStep, attemptVal, submissionVal, gradingVal, timeRemVal, lastModVal,
    statusCell]
  cases (descNode r).find? (Node.tagIs "th") with
  | none => simp
  | some th =>
    cases (descNode r).find? (Node.tagIs "td") with
    | none => simp
    | some td =>
      simp only [Option.bind_some]
      split_ifs <;> simp_all

set_option maxHeartbeats 1600000 in
theorem dateRowStep_fields (m : AssignMeta) (r : Node) :
    (dateRowStep m r).start_at = Option.or m.start_at (rowStartVal r) ∧
    (dateRowStep m r).due_at = Option.or m.due_at (rowDueVal r) ∧
    (dateRowStep m r).cutoff_at = Option.or m.cutoff_at (rowCutoffVal r) ∧
    (dateRowStep m r).attempt = m.attempt ∧
    (dateRowStep m r).submission_status = m.submission_status ∧
    (dateRowStep m r).grading_status = m.grading_status ∧
    (dateRowStep m r).time_remaining = m.time_remaining ∧
    (dateRowStep m r).last_modified = m.last_modified ∧
    (dateRowStep m r).files = m.files ∧
    (dateRowStep m r).grade_text = m.grade_text ∧
    (dateRowStep m r).grade_raw = m.grade_raw ∧
    (dateRowStep m r).grade_max = m.grade_max := by
  rcases hsa : m.start_at with _ | sa <;> rcases hda : m.due_at with _ | da <;>
    rcases hca : m.cutoff_at with _ | ca <;>
    simp only [dateRowStep, rowStartVal, rowDueVal, rowCutoffVal, hsa, hda, hca] <;>
    split_ifs <;> simp_all

set_option maxHeartbeats 1600000 in
theorem activityDatesStep_fields (m : AssignMeta) (d : Node) :
    (activityDatesStep m d).start_at = Option.or m.start_at (adStartVal d) ∧
    (activityDatesStep m d).cutoff_at = m.cutoff_at ∧
    (activityDatesStep m d).attempt = m.attempt ∧
    (activityDatesStep m d).submission_status = m.submission_status ∧
    (activityDatesStep m d).grading_status = m.grading_status ∧
    (activityDatesStep m d).time_remaining = m.time_remaining ∧
    (activityDatesStep m d).last_modified = m.last_modified ∧
    (activityDatesStep m d).files = m.files ∧
    (activityDatesStep m d).grade_text = m.grade_text ∧
    (activityDatesStep m d).grade_raw = m.grade_raw ∧
    (activityDatesStep m d).grade_max = m.grade_max ∧
    (∀ v, m.due_at = some v → (activityDatesStep m d).due_at = some v) := by
  cases hst : (descNode d).find? (Node.tagIs "strong") with
  | none => simp [activityDatesStep, adStartVal, hst]
  | some strong =>
    rcases hsa : m.start_at with _ | sa <;> rcases hda : m.due_at with _ | da <;>
      simp only [activityDatesStep, adStartVal, hst, hsa, hda] <;>
      split_ifs <;> simp_all

/- ============================================================
   Field characterisation of parse_assign_page
   ============================================================ -/

theorem parse_assign_fields (soup : Node) :
    (parse_assign_page (some soup)).start_at
      = ((activityDatesDivs soup).filterMap adStartVal ++
          (dateRows soup).filterMap rowStartVal).head? ∧
    (parse_assign_page (some soup)).cutoff_at
      = ((dateRows soup).filterMap rowCutoffVal).head? ∧
    (parse_assign_page (some soup)).attempt
      = ((statusRows soup).filterMap attemptVal).getLast? ∧
    (parse_assign_page (some soup)).submission_status
      = ((statusRows soup).filterMap submissionVal).getLast? ∧
    (parse_assign_page (some soup)).grading_status
      = ((statusRows soup).filterMap gradingVal).getLast? ∧
    (parse_assign_page (some soup)).time_remaining
      = ((statusRows soup).filterMap timeRemVal).getLast? ∧
    (parse_assign_page (some soup)).last_modified
      = ((statusRows soup).filterMap lastModVal).getLast? ∧
    (parse_assign_page (some soup)).files = assignFiles soup ∧
    (parse_assign_page (some soup)).grade_text
      = (feedbackRows soup).findSome? gradeRowMatch ∧
    (parse_assign_page (some soup)).grade_raw
      = ((feedbackRows soup).findSome? gradeRowMatch).bind (fun v => (gradeOfText v).1) ∧
    (parse_assign_page (some soup)).grade_max
      = ((feedbackRows soup).findSome? gradeRowMatch).bind (fun v => (gradeOfText v).2) := by
  have had := activityDatesStep_fields
  have hdr := dateRowStep_fields
  have hss := statusStep_fields
  set A := (activityDatesDivs soup).foldl activityDatesStep emptyMeta with hA
  set B := (dateRows soup).foldl dateRowStep A with hB
  set C := (statusRows soup).foldl statusStep B with hC
  have hA_start : A.start_at = ((activityDatesDivs soup).filterMap adStartVal).head? := by
    rw [hA, foldl_firstWriter (fun mm => mm.start_at) activityDatesStep adStartVal
      (fun m d => (had m d).1)]
    rfl
  have hA_cut : A.cutoff_at = none := by
    rw [hA, foldl_proj_const (fun mm => mm.cutoff_at) activityDatesStep
      (fun m d => (had m d).2.1)]
    rfl
  have hA_att : A.attempt = none := by
    rw [hA, foldl_proj_const (fun mm => mm.attempt) activityDatesStep
      (fun m d => (had m d).2.2.1)]
    rfl
  have hA_sub : A.submission_status = none := by
    rw [hA, foldl_proj_const (fun mm => mm.submission_status) activityDatesStep
      (fun m d => (had m d).2.2.2.1)]
    rfl
  have hA_grd : A.grading_status = none := by
    rw [hA, foldl_proj_const (fun mm => mm.grading_status) activityDatesStep
      (fun m d => (had m d).2.2.2.2.1)]
    rfl
  have hA_tim : A.time_remaining = none := by
    rw [hA, foldl_proj_const (fun mm => mm.time_remaining) activityDatesStep
      (fun m d => (had m d).2.2.2.2.2.1)]
    rfl
  have hA_lst : A.last_modified = none := by
    rw [hA, foldl_proj_const (fun mm => mm.last_modified) activityDatesStep
      (fun m d => (had m d).2.2.2.2.2.2.1)]
    rfl
  have hB_start : B.start_at
      = ((activityDatesDivs soup).filterMap adStartVal ++
          (dateRows soup).filterMap rowStartVal).head? := by
    rw [hB, foldl_firstWriter (fun mm => mm.start_at) dateRowStep rowStartVal
      (fun m r => (hdr m r).1), hA_start, head?_append_or]
  have hB_cut : B.cutoff_at = ((dateRows soup).filterMap rowCutoffVal).head? := by
    rw [hB, foldl_firstWriter (fun mm => mm.cutoff_at) dateRowStep rowCutoffVal
      (fun m r => (hdr m r).2.2.1), hA_cut]
    rfl
  have hB_att : B.attempt = none := by
    rw [hB, foldl_proj_const (fun mm => mm.attempt) dateRowStep
      (fun m r => (hdr m r).2.2.2.1), hA_att]
  have hB_sub : B.submission_status = none := by
    rw [hB, foldl_proj_const (fun mm => mm.submission_status) dateRowStep
      (fun m r => (hdr m r).2.2.2.2.1), hA_sub]
  have hB_grd : B.grading_status = none := by
    rw [hB, foldl_proj_const (fun mm => mm.grading_status) dateRowStep
      (fun m r => (hdr m r).2.2.2.2.2.1), hA_grd]
  have hB_tim : B.time_remaining = none := by
    rw [hB, foldl_proj_const (fun mm => mm.time_remaining) dateRowStep
      (fun m r => (hdr m r).2.2.2.2.2.2.1), hA_tim]
  have hB_lst : B.last_modified = none := by
    rw [hB, foldl_proj_const (fun mm => mm.last_modified) dateRowStep
      (fun m r => (hdr m r).2.2.2.2.2.2.2.1), hA_lst]
  have hC_start : C.start_at = B.start_at := by
    rw [hC, foldl_proj_const (fun mm => mm.start_at) statusStep
      (fun m r => (hss m r).2.2.2.2.2.1)]
  have hC_cut : C.cutoff_at = B.cutoff_at := by
    rw [hC, foldl_proj_const (fun mm => mm.cutoff_at) statusStep
      (fun m r => (hss m r).2.2.2.2.2.2.2.1)]
  have hC_att : C.attempt = ((statusRows soup).filterMap attemptVal).getLast? := by
    rw [hC, foldl_lastWriter (fun mm => mm.attempt) statusStep attemptVal
      (fun m r => (hss m r).1), hB_att]
    simp
  have hC_sub : C.submission_status
      = ((statusRows soup).filterMap submissionVal).getLast? := by
    rw [hC, foldl_lastWriter (fun mm => mm.submission_status) statusStep submissionVal
      (fun m r => (hss m r).2.1), hB_sub]
    simp
  have hC_grd : C.grading_status = ((statusRows soup).filterMap gradingVal).getLast? := by
    rw [hC, foldl_lastWriter (fun mm => mm.grading_status) statusStep gradingVal
      (fun m r => (hss m r).2.2.1), hB_grd]
    simp
  have hC_tim : C.time_remaining = ((statusRows soup).filterMap timeRemVal).getLast? := by
    rw [hC, foldl_lastWriter (fun mm => mm.time_remaining) statusStep timeRemVal
      (fun m r => (hss m r).2.2.2.1), hB_tim]
    simp
  have hC_lst : C.last_modified = ((statusRows soup).filterMap lastModVal).getLast? := by
    rw [hC, foldl_lastWriter (fun mm => mm.last_modified) statusStep lastModVal
      (fun m r => (hss m r).2.2.2.2.1), hB_lst]
    simp
  have hA_gt : A.grade_text = none := by
    rw [hA, foldl_proj_const (fun mm => mm.grade_text) activityDatesStep
      (fun m d => (had m d).2.2.2.2.2.2.2.2.1)]
    rfl
  have hA_gr : A.grade_raw = none := by
    rw [hA, foldl_proj_const (fun mm => mm.grade_raw) activityDatesStep
      (fun m d => (had m d).2.2.2.2.2.2.2.2.2.1)]
    rfl
  have hA_gm : A.grade_max = none := by
    rw [hA, foldl_proj_const (fun mm => mm.grade_max) activityDatesStep
      (fun m d => (had m d).2.2.2.2.2.2.2.2.2.2.1)]
    rfl
  have hB_gt : B.grade_text = none := by
    rw [hB, foldl_proj_const (fun mm => mm.grade_text) dateRowStep
      (fun m r => (hdr m r).2.2.2.2.2.2.2.2.2.1), hA_gt]
  have hB_gr : B.grade_raw = none := by
    rw [hB, foldl_proj_const (fun mm => mm.grade_raw) dateRowStep
      (fun m r => (hdr m r).2.2.2.2.2.2.2.2.2.2.1), hA_gr]
  have hB_gm : B.grade_max = none := by
    rw [hB, foldl_proj_const (fun mm => mm.grade_max) dateRowStep
      (fun m r => (hdr m r).2.2.2.2.2.2.2.2.2.2.2), hA_gm]
  have hgt : C.grade_text = none := by
    rw [hC, foldl_proj_const (fun mm => mm.grade_text) statusStep
      (fun m r => (hss m r).2.2.2.2.2.2.2.2.2.1), hB_gt]
  have hgr : C.grade_raw = none := by
    rw [hC, foldl_proj_const (fun mm => mm.grade_raw) statusStep
      (fun m r => (hss m r).2.2.2.2.2.2.2.2.2.2.1), hB_gr]
  have hgm : C.grade_max = none := by
    rw [hC, foldl_proj_const (fun mm => mm.grade_max) statusStep
      (fun m r => (hss m r).2.2.2.2.2.2.2.2.2.2.2), hB_gm]
  have hp : parse_assign_page (some soup)
      = (match (feedbackRows soup).findSome? gradeRowMatch with
         | none => { C with files := assignFiles soup }
         | some v =>
           { { C with files := assignFiles soup } with
             grade_text := some v
             grade_raw := (gradeOfText v).1
             grade_max := (gradeOfText v).2 }) := by
    simp only [parse_assign_page, ← hA, ← hB, ← hC]
  refine ⟨?_, ?_, ?_, ?_, ?_, ?_, ?_, ?_, ?_, ?_, ?_⟩ <;>
    cases hg : (feedbackRows soup).findSome? gradeRowMatch <;>
    simp only [hp, hg] <;>
    first
      | exact hC_start.trans hB_start
      | exact hC_cut.trans hB_cut
      | exact hC_att
      | exact hC_sub
      | exact hC_grd
      | exact hC_tim
      | exact hC_lst
      | exact hgt
      | exact hgr
      | exact hgm
      | rfl
      | trivial

/- ============================================================
   Claim C1
   ============================================================ -/

/-- C1 counterexample: the claim says every metadata field, the status-table
fields included, is first-writer-wins.  On a page whose status table has two
rows labelled with the attempt label carrying values "1" and "2", the code
stores "2": the second matching row overwrites the first, so attempt is not
first-writer-wins. -/
theorem C1_counterexample :
    (parse_assign_page (some ceSoupC1)).attempt = some "2" ∧
      some "2" ≠ (some "1" : Option String) := by
  constructor
  · decide
  · decide

/-- C1 (amended): the three date fields (start_at, due_at, cutoff_at) are
first-writer-wins: each extraction step leaves an already-set date field
unchanged, the status-table pass never touches them, and at page level
start_at and cutoff_at equal the first matching candidate in source order.
The five status-table fields (attempt, submission_status, grading_status,
time_remaining, last_modified) are instead assigned by every matching row,
so each equals the value of the last matching row. -/
theorem C1_amended :
    (∀ (m : AssignMeta) (d : Node) (v : String),
        m.start_at = some v → (activityDatesStep m d).start_at = some v) ∧
    (∀ (m : AssignMeta) (d : Node) (v : String),
        m.due_at = some v → (activityDatesStep m d).due_at = some v) ∧
    (∀ (m : AssignMeta) (r : Node) (v : String),
        m.start_at = some v → (dateRowStep m r).start_at = some v) ∧
    (∀ (m : AssignMeta) (r : Node) (v : String),
        m.due_at = some v → (dateRowStep m r).due_at = some v) ∧
    (∀ (m : AssignMeta) (r : Node) (v : String),
        m.cutoff_at = some v → (dateRowStep m r).cutoff_at = some v) ∧
    (∀ (m : AssignMeta) (r : Node),
        (statusStep m r).start_at = m.start_at ∧ (statusStep m r).due_at = m.due_at ∧
          (statusStep m r).cutoff_at = m.cutoff_at) ∧
    (∀ soup : Node, (parse_assign_page (some soup)).start_at
        = ((activityDatesDivs soup).filterMap adStartVal ++
            (dateRows soup).filterMap rowStartVal).head?) ∧
    (∀ soup : Node, (parse_assign_page (some soup)).cutoff_at
        = ((dateRows soup).filterMap rowCutoffVal).head?) ∧
    (∀ soup : Node, (parse_assign_page (some soup)).attempt
        = ((statusRows soup).filterMap attemptVal).getLast?) ∧
    (∀ soup : Node, (parse_assign_page (some soup)).submission_status
        = ((statusRows soup).filterMap submissionVal).getLast?) ∧
    (∀ soup : Node, (parse_assign_page (some soup)).grading_status
        = ((statusRows soup).filterMap gradingVal).getLast?) ∧
    (∀ soup : Node, (parse_assign_page (some soup)).time_remaining
        = ((statusRows soup).filterMap timeRemVal).getLast?) ∧
    (∀ soup : Node, (parse_assign_page (some soup)).last_modified
        = ((statusRows soup).filterMap lastModVal).getLast?) := by
  refine ⟨?_, ?_, ?_, ?_, ?_, ?_, ?_, ?_, ?_, ?_, ?_, ?_, ?_⟩
  · intro m d v hv
    rw [(activityDatesStep_fields m d).1, hv]
    rfl
  · intro m d v hv
    exact (activityDatesStep_fields m d).2.2.2.2.2.2.2.2.2.2.2 v hv
  · intro m r v hv
    rw [(dateRowStep_fields m r).1, hv]
    rfl
  · intro m r v hv
    rw [(dateRowStep_fields m r).2.1, hv]
    rfl
  · intro m r v hv
    rw [(dateRowStep_fields m r).2.2.1, hv]
    rfl
  · intro m r
    exact ⟨(statusStep_fields m r).2.2.2.2.2.1, (statusStep_fields m r).2.2.2.2.2.2.1,
      (statusStep_fields m r).2.2.2.2.2.2.2.1⟩
  · intro soup
    exact (parse_assign_fields soup).1
  · intro soup
    exact (parse_assign_fields soup).2.1
  · intro soup
    exact (parse_assign_fields soup).2.2.1
  · intro soup
    exact (parse_assign_fields soup).2.2.2.1
  · intro soup
    exact (parse_assign_fields soup).2.2.2.2.1
  · intro soup
    exact (parse_assign_fields soup).2.2.2.2.2.1
  · intro soup
    exact (parse_assign_fields soup).2.2.2.2.2.2.1

/-- C1 amended witness: the preservation parts applied at concrete inputs,
each hypothesis discharged by computation. -/
theorem C1_amended_witness :
    (activityDatesStep { emptyMeta with start_at := some "s" } (Node.text "x")).start_at
      = some "s" ∧
    (dateRowStep { emptyMeta with due_at := some "d" } (Node.text "x")).due_at
      = some "d" ∧
    (dateRowStep { emptyMeta with cutoff_at := some "c" } (Node.text "x")).cutoff_at
      = some "c" := by
  refine ⟨?_, ?_, ?_⟩
  · exact C1_amended.1 _ _ _ rfl
  · exact C1_amended.2.2.2.1 _ _ _ rfl
  · exact C1_amended.2.2.2.2.1 _ _ _ rfl

/- ============================================================
   Claim C2
   ============================================================ -/

/-- C2: each of the three URL-collection operations — the folder-tree walk,
the pluginfile href/src scan of collect_activity_files, and the attached-file
scan of parse_assign_page — returns a duplicate-free list equal to the
first-occurrence dedup of its raw candidate sequence: a URL already present
is never appended a second time and first-seen order is retained. -/
theorem C2_dedup_order (soup : Node) :
    (parse_folder_tree soup).Nodup ∧
    parse_folder_tree soup = dedupFirst (folderCands soup) ∧
    (pluginScan soup).Nodup ∧
    pluginScan soup = dedupFirst (scanCands soup) ∧
    (assignFiles soup).Nodup ∧
    assignFiles soup = dedupFirst (fileCands soup) ∧
    (parse_assign_page (some soup)).files = dedupFirst (fileCands soup) := by
  refine ⟨?_, parse_folder_tree_eq soup, ?_, pluginScan_eq soup, ?_, assignFiles_eq soup, ?_⟩
  · rw [parse_folder_tree_eq]
    exact nodup_dedupFirst _
  · rw [pluginScan_eq]
    exact nodup_dedupFirst _
  · rw [assignFiles_eq]
    exact nodup_dedupFirst _
  · rw [(parse_assign_fields soup).2.2.2.2.2.2.2.1]
    exact assignFiles_eq soup

/- ============================================================
   Claim C8
   ============================================================ -/

/-- C8: when navigation to the assignment page fails, parse_assign_page
returns the empty metadata record (the bare Python dictionary, whose every
key reads as None and whose files list reads as empty), and the failure is
not propagated: the function is total on the failure input. -/
theorem C8_nav_failure :
    (parse_assign_page none).start_at = none ∧
    (parse_assign_page none).due_at = none ∧
    (parse_assign_page none).cutoff_at = none ∧
    (parse_assign_page none).attempt = none ∧
    (parse_assign_page none).submission_status = none ∧
    (parse_assign_page none).grading_status = none ∧
    (parse_assign_page none).time_remaining = none ∧
    (parse_assign_page none).last_modified = none ∧
    (parse_assign_page none).files = [] ∧
    (parse_assign_page none).grade_text = none ∧
    (parse_assign_page none).grade_raw = none ∧
    (parse_assign_page none).grade_max = none :=
  ⟨rfl, rfl, rfl, rfl, rfl, rfl, rfl, rfl, rfl, rfl, rfl, rfl⟩

/- ============================================================
   Claim C9
   ============================================================ -/

/-- C9: the folder-tree walk terminates on every finite fragment — fuel
nodeSize n computes the limit of the recursion, and any larger fuel gives
the same value — and parse_folder_tree returns a finite duplicate-free list
whose length is at most the number of distinct resource-file links present
in the fragment. -/
theorem C9_folder_termination (soup : Node) :
    (∀ (n : Node) (files : List String) (f : Nat), nodeSize n ≤ f →
        recurseFuel f n files = recurseFuel (nodeSize n) n files) ∧
    (parse_folder_tree soup).Nodup ∧
    (parse_folder_tree soup).length ≤ (dedupFirst (allPluginLinks soup)).length := by
  refine ⟨?_, ?_, ?_⟩
  · intro n files f hf
    exact recurseFuel_congr (nodeSize n) n (Nat.le_refl _) f (nodeSize n) hf
      (Nat.le_refl _) files
  · rw [parse_folder_tree_eq]
    exact nodup_dedupFirst _
  · rw [parse_folder_tree_eq]
    exact nodup_length_le_dedupFirst (nodup_dedupFirst _)
      (fun x hx => folderCands_sub soup x (mem_dedupFirst.mp hx))

/-- C9 witness: the stabilisation part applied to a concrete tree with
surplus fuel. -/
theorem C9_witness :
    nodeSize ceRootItem ≤ 9 ∧
    recurseFuel 9 ceRootItem [] = recurseFuel (nodeSize ceRootItem) ceRootItem [] :=
  ⟨by decide, (C9_folder_termination ceRootItem).1 ceRootItem [] 9 (by decide)⟩

/- ============================================================
   Claim C4
   ============================================================ -/

theorem flatMap_flatMap_own {α β γ : Type} (l : List α) (g : α → List β) (h : β → List γ) :
    (l.flatMap g).flatMap h = l.flatMap (fun x => (g x).flatMap h) := by
  induction l with
  | nil => rfl
  | cons x l ih => simp [List.flatMap_cons, ih]

/-- C4 counterexample: the claim says the walk recurses only into child-group
items one level down, so no item is reached through more than one path.  In
ceRootItem the item with id "inner" sits two levels below the root item, yet
the child-combinator selector applied at the root already matches it (the
selector matches anywhere in the subtree), and the traversal visits it twice:
directly from the root and again below the intermediate item "mid". -/
theorem C4_counterexample :
    (selectCGI ceRootItem).countP (hasId "inner") = 1 ∧
    (visitsFuel (nodeSize ceRootItem) ceRootItem).countP (hasId "inner") = 2 := by
  constructor
  · decide
  · decide

/-- C4 (amended): the recursion descends into every .ygtvchildren >
.ygtvitem pair found at any depth of the current subtree (so nested items
can be visited through several recursion paths); the candidate URLs scanned
are exactly those of the visited nodes in visit order, and the global
membership guard keeps the resulting list duplicate-free regardless of
repeated visits. -/
theorem C4_amended :
    (∀ (n x : Node), x ∈ selectCGI n → x ∈ descNode n) ∧
    (∀ (f : Nat) (n : Node), collectFuel f n
        = (visitsFuel f n).flatMap
            (fun v => (selectPluginAnchors v).filterMap anchorHrefCand)) ∧
    (∀ (f : Nat) (n : Node) (files : List String),
        files.Nodup → (recurseFuel f n files).Nodup) := by
  refine ⟨?_, ?_, ?_⟩
  · intro n x hx
    exact selectCGI_mem_desc hx
  · intro f
    induction f with
    | zero => intro n; rfl
    | succ f ih =>
      intro n
      simp only [collectFuel, visitsFuel, List.flatMap_cons, ih]
      rw [flatMap_flatMap_own]
  · intro f n files h
    rw [recurseFuel_eq]
    exact nodup_dedupAppend _ _ h

/-- C4 amended witness: the dedup part applied to a concrete tree and the
empty accumulator. -/
theorem C4_amended_witness :
    ([] : List String).Nodup ∧ (recurseFuel (nodeSize ceRootItem) ceRootItem []).Nodup :=
  ⟨List.nodup_nil, C4_amended.2.2 _ _ _ List.nodup_nil⟩

/- ============================================================
   Claim C3
   ============================================================ -/

/-- C3 counterexample: the claim says every activity URL containing the
resource-file marker is returned as the sole result.  The URL
"/pluginfile.php/a.pdf" contains the marker, but the code checks
reachability first and a URL not starting with http yields the empty list. -/
theorem C3_counterexample :
    containsSub "pluginfile.php".data "/pluginfile.php/a.pdf".data = true ∧
    collect_activity_files "/pluginfile.php/a.pdf" none = [] ∧
    ([] : List String) ≠ ["/pluginfile.php/a.pdf"] := by
  refine ⟨?_, ?_, ?_⟩
  · decide
  · decide
  · decide

/-- C3 (amended): the reachability check comes first: any activity URL not
starting with http (which subsumes the empty string and the placeholder "#")
yields the empty list without navigation; only then, a reachable URL that
itself contains the resource-file marker is returned as the sole result,
without navigation. -/
theorem C3_amended (url : String) (nav : Option Node) :
    (¬("http".data.isPrefixOf url.data = true) → collect_activity_files url nav = []) ∧
    ("http".data.isPrefixOf url.data = true →
      containsSub "pluginfile.php".data url.data = true →
      collect_activity_files url nav = [url]) := by
  constructor
  · intro h
    simp [collect_activity_files, h]
  · intro hp hm
    have h1 : url.data.isEmpty = false := by
      cases hd : url.data with
      | nil => rw [hd] at hp; simp [List.isPrefixOf] at hp
      | cons c t => rfl
    have h2 : ¬url = "#" := by
      intro he
      subst he
      revert hp
      decide
    simp [collect_activity_files, h1, h2, hp, hm]

/-- C3 amended witness: both parts at concrete URLs, the hypotheses
discharged by computation. -/
theorem C3_amended_witness :
    collect_activity_files "/pluginfile.php/a.pdf" none = [] ∧
    collect_activity_files "https://moodle.elct.lnu.edu.ua/pluginfile.php/f.pdf" none
      = ["https://moodle.elct.lnu.edu.ua/pluginfile.php/f.pdf"] :=
  ⟨(C3_amended "/pluginfile.php/a.pdf" none).1 (by decide),
   (C3_amended "https://moodle.elct.lnu.edu.ua/pluginfile.php/f.pdf" none).2
     (by decide) (by decide)⟩

/- ============================================================
   Claim C5
   ============================================================ -/

/-- C5 counterexample: the claim says the fallback picks the first anchor of
the ordered regions .resourceworkaround, .activityinstance, .region-main, so
on ceSoupC5 it would pick the .resourceworkaround anchor /u2.  The code
selects the union of the three regions in document order and returns the
.region-main anchor /u1, which precedes it in the document. -/
theorem C5_counterexample :
    collect_activity_files "http://x/view" (some ceSoupC5)
      = [MOODLE_BASE ++ "/u1"] ∧
    (fallbackAnchors ceSoupC5).countP (fun n => n.attr "href" == some "/u2") = 1 ∧
    MOODLE_BASE ++ "/u1" ≠ MOODLE_BASE ++ "/u2" := by
  refine ⟨?_, ?_, ?_⟩
  · decide
  · decide
  · decide

/-- C5 (amended): when the page has no folder-tree widget and the
pluginfile scan is empty, the result is the first acceptable anchor target
among all anchors inside any of the three fallback containers taken
together in document order (not region by region), resolved; and when no
such candidate exists the activity URL itself is returned. -/
theorem C5_amended :
    (∀ l : List Node, fallbackLoop l = (l.filterMap acceptableHref).head?) ∧
    (∀ (url : String) (soup : Node),
      "http".data.isPrefixOf url.data = true →
      containsSub "pluginfile.php".data url.data = false →
      ((descNode soup).filter (Node.hasClass "foldertree")).isEmpty = true →
      pluginScan soup = [] →
      collect_activity_files url (some soup) =
        (match ((fallbackAnchors soup).filterMap acceptableHref).head? with
         | some u => [u]
         | none => [url])) := by
  have hfl : ∀ l : List Node, fallbackLoop l = (l.filterMap acceptableHref).head? := by
    intro l
    induction l with
    | nil => rfl
    | cons a rest ih =>
      simp only [fallbackLoop, List.filterMap_cons]
      cases acceptableHref a with
      | none => simpa using ih
      | some u => rfl
  refine ⟨hfl, ?_⟩
  intro url soup hp hm hft hps
  have h1 : url.data.isEmpty = false := by
    cases hd : url.data with
    | nil => rw [hd] at hp; simp [List.isPrefixOf] at hp
    | cons c t => rfl
  have h2 : ¬url = "#" := by
    intro he
    subst he
    revert hp
    decide
  simp [collect_activity_files, collectFromPage, h1, h2, hp, hm, hft, hps, hfl]

/-- C5 amended witness: the fallback part applied to the concrete page
ceSoupC5, every hypothesis discharged by computation. -/
theorem C5_amended_witness :
    collect_activity_files "http://x/view" (some ceSoupC5)
      = ["https://moodle.elct.lnu.edu.ua/u1"] := by
  have h := C5_amended.2 "http://x/view" ceSoupC5 (by decide) (by decide) (by decide)
    (by decide)
  rw [h]
  decide

/- ============================================================
   Claim C6
   ============================================================ -/

/-- C6: the grade-cell text is stored verbatim as grade_text (the value of
the first matching feedback row); grade_raw and grade_max are derived only
when the text splits on "/" into exactly two parts, each side normalised
and parsed independently (a failing side is None, never an exception, which
in this total model holds by construction); in particular
"7,00 / 10,00" gives 7 and 10, and "Passed" gives None twice. -/
theorem C6_grade :
    (∀ soup : Node, (parse_assign_page (some soup)).grade_text
        = (feedbackRows soup).findSome? gradeRowMatch) ∧
    (∀ soup : Node, (parse_assign_page (some soup)).grade_raw
        = ((feedbackRows soup).findSome? gradeRowMatch).bind (fun v => (gradeOfText v).1)) ∧
    (∀ soup : Node, (parse_assign_page (some soup)).grade_max
        = ((feedbackRows soup).findSome? gradeRowMatch).bind (fun v => (gradeOfText v).2)) ∧
    (∀ (t : String) (a b : List Char), pySplit "/".data t.data = [a, b] →
        gradeOfText t = (normalize_number (String.mk a), normalize_number (String.mk b))) ∧
    (∀ t : String, (pySplit "/".data t.data).length ≠ 2 → gradeOfText t = (none, none)) ∧
    gradeOfText "7,00 / 10,00" = (some 7, some 10) ∧
    gradeOfText "Passed" = (none, none) := by
  refine ⟨?_, ?_, ?_, ?_, ?_, ?_, ?_⟩
  · intro soup
    exact (parse_assign_fields soup).2.2.2.2.2.2.2.2.1
  · intro soup
    exact (parse_assign_fields soup).2.2.2.2.2.2.2.2.2.1
  · intro soup
    exact (parse_assign_fields soup).2.2.2.2.2.2.2.2.2.2
  · intro t a b h
    simp [gradeOfText, h]
  · intro t h
    unfold gradeOfText
    rcases hl : pySplit "/".data t.data with _ | ⟨a, _ | ⟨b, _ | ⟨c, rest⟩⟩⟩
    · rfl
    · rfl
    · rw [hl] at h
      simp at h
    · rfl
  · have hs : pySplit "/".data "7,00 / 10,00".data = ["7,00 ".data, " 10,00".data] := by
      decide
    have h1 : gradeOfText "7,00 / 10,00"
        = (normalize_number "7,00 ", normalize_number " 10,00") := by
      simp only [gradeOfText, hs]
    have h2 : normalize_number "7,00 "
        = some ((1 : ℚ) * (((7:ℕ) : ℚ) + ((0:ℕ) : ℚ) / (10 : ℚ) ^ 2)) := rfl
    have h3 : normalize_number " 10,00"
        = some ((1 : ℚ) * (((10:ℕ) : ℚ) + ((0:ℕ) : ℚ) / (10 : ℚ) ^ 2)) := rfl
    rw [h1, h2, h3]
    norm_num
  · decide

/-- C6 witness: the two-part split rule and the no-split rule applied at
concrete grade texts, the split hypotheses discharged by computation. -/
theorem C6_grade_witness :
    gradeOfText "3/4"
      = (normalize_number (String.mk "3".data), normalize_number (String.mk "4".data)) ∧
    gradeOfText "Passed" = (none, none) :=
  ⟨C6_grade.2.2.2.1 "3/4" "3".data "4".data (by decide),
   C6_grade.2.2.2.2.1 "Passed" (by decide)⟩

/- ============================================================
   Lemmas for filename extraction (claim C7)
   ============================================================ -/

theorem char_toNat_ofNat_valid (n : Nat) (hv : Nat.isValidChar n) :
    (Char.ofNat n).toNat = n := by
  simp [Char.ofNat, Char.toNat, Char.ofNatAux, hv, UInt32.toNat, BitVec.toNat_ofNatLt]

theorem char_toNat_injective (c d : Char) (h : c.toNat = d.toNat) : c = d :=
  Char.eq_of_val_eq (UInt32.ext h)

set_option maxHeartbeats 2000000 in
theorem utf8Step_spec {b : Nat} {bs : List Nat} {v : Nat} {rest : List Nat}
    (h : utf8Step b bs = some (v, rest)) :
    Nat.isValidChar v ∧ (v < 0x80 → v = b) ∧ (∀ x ∈ rest, x ∈ bs) := by
  unfold utf8Step at h
  split_ifs at h with h1 h2 h3 h4 h5 h6 h7 h8
  · rw [Option.some.injEq, Prod.mk.injEq] at h
    obtain ⟨rfl, rfl⟩ := h
    exact ⟨Or.inl (by omega), fun _ => rfl, fun x hx => hx⟩
  · split at h <;> try exact Option.noConfusion h
    split_ifs at h with hb <;> try exact Option.noConfusion h
    rw [Option.some.injEq, Prod.mk.injEq] at h
    obtain ⟨rfl, rfl⟩ := h
    refine ⟨?_, fun hv => by omega, fun x hx => List.mem_cons_of_mem _ (hx)⟩
    exact Or.inl (by omega)
  · split at h <;> try exact Option.noConfusion h
    split_ifs at h with hb <;> try exact Option.noConfusion h
    rw [Option.some.injEq, Prod.mk.injEq] at h
    obtain ⟨rfl, rfl⟩ := h
    refine ⟨?_, fun hv => by omega, fun x hx => List.mem_cons_of_mem _ (List.mem_cons_of_mem _ (hx))⟩
    exact Or.inl (by omega)
  · split at h <;> try exact Option.noConfusion h
    split_ifs at h with hb <;> try exact Option.noConfusion h
    rw [Option.some.injEq, Prod.mk.injEq] at h
    obtain ⟨rfl, rfl⟩ := h
    refine ⟨?_, fun hv => by omega, fun x hx => List.mem_cons_of_mem _ (List.mem_cons_of_mem _ (hx))⟩
    exact Or.inl (by omega)
  · split at h <;> try exact Option.noConfusion h
    split_ifs at h with hb <;> try exact Option.noConfusion h
    rw [Option.some.injEq, Prod.mk.injEq] at h
    obtain ⟨rfl, rfl⟩ := h
    refine ⟨?_, fun hv => by omega, fun x hx => List.mem_cons_of_mem _ (List.mem_cons_of_mem _ (hx))⟩
    rcases Nat.lt_or_ge b 0xED with hlt | hge
    · exact Or.inl (by omega)
    · exact Or.inr ⟨by omega, by omega⟩
  · split at h <;> try exact Option.noConfusion h
    split_ifs at h with hb <;> try exact Option.noConfusion h
    rw [Option.some.injEq, Prod.mk.injEq] at h
    obtain ⟨rfl, rfl⟩ := h
    refine ⟨?_, fun hv => by omega, fun x hx => List.mem_cons_of_mem _ (List.mem_cons_of_mem _ (List.mem_cons_of_mem _ (hx)))⟩
    exact Or.inr ⟨by omega, by omega⟩
  · split at h <;> try exact Option.noConfusion h
    split_ifs at h with hb <;> try exact Option.noConfusion h
    rw [Option.some.injEq, Prod.mk.injEq] at h
    obtain ⟨rfl, rfl⟩ := h
    refine ⟨?_, fun hv => by omega, fun x hx => List.mem_cons_of_mem _ (List.mem_cons_of_mem _ (List.mem_cons_of_mem _ (hx)))⟩
    exact Or.inr ⟨by omega, by omega⟩
  · split at h <;> try exact Option.noConfusion h
    split_ifs at h with hb <;> try exact Option.noConfusion h
    rw [Option.some.injEq, Prod.mk.injEq] at h
    obtain ⟨rfl, rfl⟩ := h
    refine ⟨?_, fun hv => by omega, fun x hx => List.mem_cons_of_mem _ (List.mem_cons_of_mem _ (List.mem_cons_of_mem _ (hx)))⟩
    exact Or.inr ⟨by omega, by omega⟩

theorem utf8_low_mem_go : ∀ (f : Nat) (bs : List Nat) (cs : List Char),
    utf8DecodeStrictGo f bs = some cs → ∀ c ∈ cs, c.toNat < 0x80 → c.toNat ∈ bs := by
  intro f
  induction f with
  | zero =>
    intro bs cs h c hc hlt
    cases bs with
    | nil =>
      simp only [utf8DecodeStrictGo, Option.some.injEq] at h
      subst h
      simp at hc
    | cons b bs1 => simp [utf8DecodeStrictGo] at h
  | succ f ih =>
    intro bs cs h c hc hlt
    cases bs with
    | nil =>
      simp only [utf8DecodeStrictGo, Option.some.injEq] at h
      subst h
      simp at hc
    | cons b bs1 =>
      simp only [utf8DecodeStrictGo] at h
      cases hstep : utf8Step b bs1 with
      | none => rw [hstep] at h; simp at h
      | some p =>
        obtain ⟨v, rest⟩ := p
        rw [hstep] at h
        simp only [Option.map_eq_some'] at h
        obtain ⟨cs1, h1, hcs⟩ := h
        subst hcs
        obtain ⟨hval, hvb, hsub⟩ := utf8Step_spec hstep
        rcases List.mem_cons.mp hc with rfl | hc1
        · rw [char_toNat_ofNat_valid v hval] at hlt ⊢
          rw [hvb hlt]
          exact List.mem_cons_self _ _
        · exact List.mem_cons_of_mem b (hsub _ (ih rest cs1 h1 c hc1 hlt))

theorem utf8DecodeStrict_low_mem {bs : List Nat} {cs : List Char}
    (h : utf8DecodeStrict bs = some cs) :
    ∀ c ∈ cs, c.toNat < 0x80 → c.toNat ∈ bs :=
  utf8_low_mem_go bs.length bs cs h

theorem afterLast_not_mem (c : Char) (l : List Char) : c ∉ afterLast c l := by
  unfold afterLast
  intro h
  rw [List.mem_reverse] at h
  have := List.mem_takeWhile_imp h
  simp at this

theorem afterLast_sub (c : Char) (l : List Char) : ∀ x ∈ afterLast c l, x ∈ l := by
  intro x h
  unfold afterLast at h
  rw [List.mem_reverse] at h
  have := (List.takeWhile_sublist (fun d => d ≠ c)).subset h
  rwa [List.mem_reverse] at this

theorem fixEncodingChars_no_mem {c : Char} (hc : c.toNat < 0x80) {f : List Char}
    (h : c ∉ f) : c ∉ fixEncodingChars f := by
  unfold fixEncodingChars
  split_ifs with h1 h2 h3
  · exact h
  · split
    · rename_i g hg
      intro hcg
      have hmem := utf8DecodeStrict_low_mem hg c hcg hc
      rw [List.mem_map] at hmem
      obtain ⟨d, hd1, hd2⟩ := hmem
      exact h (char_toNat_injective d c hd2 ▸ hd1)
    · exact h
  · exact h
  · exact h

/- ============================================================
   Claim C7
   ============================================================ -/

/-- C7: filename_from_content_disposition tries, in order, the extended
form with the UTF-8 marker, the quoted form, then the unquoted form; the
quoted and unquoted captures are normalised by the whitespace strip and
the quote strip of the source before use; it strips any forward- or
back-slash delimited path prefix from the extracted name; it returns None
for an absent, empty or unparseable header, so the caller falls back to
the URL-derived default name ("file" when that is empty too); and every
returned name is nonempty and free of path separators.  The two concrete
examples of the spec evaluate as claimed. -/
theorem C7_content_disposition :
    filename_from_content_disposition none = none ∧
    filename_from_content_disposition (some "") = none ∧
    filename_from_content_disposition (some "attachment") = none ∧
    filename_from_content_disposition
        (some ("attachment; filename*=UTF-8" ++ String.mk [aposChar, aposChar] ++
          "lecture%201.pdf")) = some "lecture 1.pdf" ∧
    filename_from_content_disposition (some "attachment; filename=\"report.docx\"")
      = some "report.docx" ∧
    filename_from_content_disposition (some "attachment; filename=report.docx")
      = some "report.docx" ∧
    filename_from_content_disposition (some "attachment; filename=\" report.docx \"")
      = some "report.docx" ∧
    filename_from_content_disposition (some "filename=plain.pdf; filename=\"quoted.pdf\"")
      = some "quoted.pdf" ∧
    filename_from_content_disposition
        (some ("inline; filename=\"b.pdf\"; filename*=UTF-8" ++
          String.mk [aposChar, aposChar] ++ "a.pdf")) = some "a.pdf" ∧
    filename_from_content_disposition (some "attachment; filename=\"dir/sub\\name.pdf\"")
      = some "name.pdf" ∧
    resolveDownloadName none "fallback.pdf" = "fallback.pdf" ∧
    resolveDownloadName none "" = "file" ∧
    (∀ (cd : Option String) (name : String),
      filename_from_content_disposition cd = some name →
        name ≠ "" ∧ '/' ∉ name.data ∧ '\\' ∉ name.data) := by
  refine ⟨rfl, ?_, ?_, ?_, ?_, ?_, ?_, ?_, ?_, ?_, ?_, ?_, ?_⟩
  · decide
  · decide
  · decide
  · decide
  · decide
  · decide
  · decide
  · decide
  · decide
  · decide
  · decide
  · intro cd name h
    cases cd with
    | none => exact Option.noConfusion h
    | some cd0 =>
      simp only [filename_from_content_disposition] at h
      by_cases he : cd0.data.isEmpty
      · rw [if_pos he] at h
        exact Option.noConfusion h
      · rw [if_neg he] at h
        split at h
        · exact Option.noConfusion h
        · rename_i f0 hf0
          split_ifs at h with hemp
          rw [Option.some.injEq] at h
          subst h
          refine ⟨?_, ?_, ?_⟩
          · intro hblank
            apply hemp
            have hdata := congrArg String.data hblank
            simp only [String.data] at hdata
            rw [hdata]
            rfl
          · intro hsl
            have h1 : '/' ∉ afterLast '\\' (afterLast '/' f0) := fun hm =>
              afterLast_not_mem '/' f0 (afterLast_sub '\\' (afterLast '/' f0) '/' hm)
            exact fixEncodingChars_no_mem (by decide) h1 hsl
          · intro hsl
            exact fixEncodingChars_no_mem (by decide)
              (afterLast_not_mem '\\' (afterLast '/' f0)) hsl

/-- C7 witness: the general nonempty and path-free part applied to a
concrete quoted header, the extraction hypothesis discharged by
computation. -/
theorem C7_witness :
    "report.docx" ≠ "" ∧ '/' ∉ "report.docx".data ∧ '\\' ∉ "report.docx".data :=
  C7_content_disposition.2.2.2.2.2.2.2.2.2.2.2.2
    (some "attachment; filename=\"report.docx\"") "report.docx" (by decide)

/- ============================================================
   Lemmas for safe_name (claim C10)
   ============================================================ -/

theorem collapseWS_cons_nonspace (d : Char) (rest : List Char)
    (hd : isPySpace d = false) : ∃ t, collapseWS (d :: rest) = d :: t := by
  cases rest with
  | nil => exact ⟨[], by simp [collapseWS, hd]⟩
  | cons e rest2 => exact ⟨collapseWS (e :: rest2), by simp [collapseWS, hd]⟩

theorem collapseWS_noAdj : ∀ l : List Char, noAdjSpaceB (collapseWS l) = true
  | [] => rfl
  | [c] => by
    by_cases hc : isPySpace c = true <;> simp [collapseWS, hc, noAdjSpaceB]
  | c :: d :: rest => by
    have ih := collapseWS_noAdj (d :: rest)
    by_cases hc : isPySpace c = true
    · by_cases hd : isPySpace d = true
      · simpa [collapseWS, hc, hd] using ih
      · have hd' : isPySpace d = false := by simpa using hd
        obtain ⟨t, ht⟩ := collapseWS_cons_nonspace d rest hd'
        rw [ht] at ih
        simp [collapseWS, hc, hd', ht, noAdjSpaceB, ih]
    · have hc' : isPySpace c = false := by simpa using hc
      cases hX : collapseWS (d :: rest) with
      | nil => simp [collapseWS, hc', hX, noAdjSpaceB]
      | cons x t =>
        rw [hX] at ih
        simp [collapseWS, hc', hX, noAdjSpaceB, ih]

theorem collapseWS_space_eq : ∀ l : List Char, ∀ c ∈ collapseWS l,
    isPySpace c = true → c = ' '
  | [] => by intro c hc; simp [collapseWS] at hc
  | [c0] => by
    intro c hc hsp
    by_cases h0 : isPySpace c0 = true
    · simp [collapseWS, h0] at hc
      exact hc
    · simp [collapseWS, h0] at hc
      exact absurd (hc ▸ hsp) h0
  | c0 :: d :: rest => by
    intro c hc hsp
    have ih := collapseWS_space_eq (d :: rest)
    by_cases h0 : isPySpace c0 = true
    · by_cases hd : isPySpace d = true
      · rw [show collapseWS (c0 :: d :: rest) = collapseWS (d :: rest) by
          simp [collapseWS, h0, hd]] at hc
        exact ih c hc hsp
      · have hd' : isPySpace d = false := by simpa using hd
        rw [show collapseWS (c0 :: d :: rest) = ' ' :: collapseWS (d :: rest) by
          simp [collapseWS, h0, hd']] at hc
        rcases List.mem_cons.mp hc with rfl | hc1
        · rfl
        · exact ih c hc1 hsp
    · have h0' : isPySpace c0 = false := by simpa using h0
      rw [show collapseWS (c0 :: d :: rest) = c0 :: collapseWS (d :: rest) by
        simp [collapseWS, h0']] at hc
      rcases List.mem_cons.mp hc with rfl | hc1
      · rw [h0'] at hsp
        exact absurd hsp (by simp)
      · exact ih c hc1 hsp

theorem collapseWS_mem : ∀ l : List Char, ∀ c ∈ collapseWS l, c = ' ' ∨ c ∈ l
  | [] => by intro c hc; simp [collapseWS] at hc
  | [c0] => by
    intro c hc
    by_cases h0 : isPySpace c0 = true <;> simp [collapseWS, h0] at hc
    · exact Or.inl hc
    · subst hc
      exact Or.inr (List.mem_cons_self _ _)
  | c0 :: d :: rest => by
    intro c hc
    have ih := collapseWS_mem (d :: rest)
    by_cases h0 : isPySpace c0 = true
    · by_cases hd : isPySpace d = true
      · rw [show collapseWS (c0 :: d :: rest) = collapseWS (d :: rest) by
          simp [collapseWS, h0, hd]] at hc
        rcases ih c hc with h | h
        · exact Or.inl h
        · exact Or.inr (List.mem_cons_of_mem c0 h)
      · have hd' : isPySpace d = false := by simpa using hd
        rw [show collapseWS (c0 :: d :: rest) = ' ' :: collapseWS (d :: rest) by
          simp [collapseWS, h0, hd']] at hc
        rcases List.mem_cons.mp hc with rfl | hc1
        · exact Or.inl rfl
        · rcases ih c hc1 with h | h
          · exact Or.inl h
          · exact Or.inr (List.mem_cons_of_mem c0 h)
    · have h0' : isPySpace c0 = false := by simpa using h0
      rw [show collapseWS (c0 :: d :: rest) = c0 :: collapseWS (d :: rest) by
        simp [collapseWS, h0']] at hc
      rcases List.mem_cons.mp hc with rfl | hc1
      · exact Or.inr (List.mem_cons_self _ _)
      · rcases ih c hc1 with h | h
        · exact Or.inl h
        · exact Or.inr (List.mem_cons_of_mem c0 h)

theorem noAdj_take : ∀ (l : List Char) (m : Nat),
    noAdjSpaceB l = true → noAdjSpaceB (l.take m) = true
  | [], m, _ => by cases m <;> rfl
  | [c], m, _ => by
    cases m with
    | zero => rfl
    | succ m1 => cases m1 <;> rfl
  | c :: d :: rest, m, h => by
    cases m with
    | zero => rfl
    | succ m1 =>
      cases m1 with
      | zero => rfl
      | succ m2 =>
        simp only [noAdjSpaceB, Bool.and_eq_true] at h
        have ih := noAdj_take (d :: rest) (m2 + 1) h.2
        simp only [List.take_succ_cons]
        simp only [List.take_succ_cons] at ih
        simp [noAdjSpaceB, h.1, ih]

theorem noAdj_exists_nonspace : ∀ l : List Char, noAdjSpaceB l = true →
    2 ≤ l.length → ∃ c ∈ l, isPySpace c = false
  | [], _, h2 => by simp at h2
  | [c], _, h2 => by simp at h2
  | c :: d :: rest, h, _ => by
    simp only [noAdjSpaceB, Bool.and_eq_true] at h
    by_cases hc : isPySpace c = true
    · have hd : isPySpace d = false := by
        have h1 := h.1
        cases hdd : isPySpace d with
        | false => rfl
        | true => rw [hc, hdd] at h1; simp at h1
      exact ⟨d, List.mem_cons_of_mem c (List.mem_cons_self d rest), hd⟩
    · exact ⟨c, List.mem_cons_self c _, by simpa using hc⟩

theorem rstrip_sub (p : Char → Bool) (l : List Char) :
    ∀ x ∈ rstripChars p l, x ∈ l := by
  intro x h
  unfold rstripChars at h
  rw [List.mem_reverse] at h
  have := (List.dropWhile_sublist p).subset h
  rwa [List.mem_reverse] at this

theorem rstrip_length_le (p : Char → Bool) (l : List Char) :
    (rstripChars p l).length ≤ l.length := by
  unfold rstripChars
  rw [List.length_reverse]
  calc (l.reverse.dropWhile p).length ≤ l.reverse.length :=
        (List.dropWhile_sublist p).length_le
    _ = l.length := List.length_reverse l

theorem rstrip_ne_nil {p : Char → Bool} {l : List Char}
    (h : ∃ x ∈ l, p x = false) : rstripChars p l ≠ [] := by
  obtain ⟨x, hx, hpx⟩ := h
  unfold rstripChars
  intro hc
  rw [List.reverse_eq_nil_iff, List.dropWhile_eq_nil_iff] at hc
  have := hc x (List.mem_reverse.mpr hx)
  rw [hpx] at this
  exact Bool.noConfusion this

theorem rstrip_take_eq (p : Char → Bool) (l : List Char) :
    ∃ k, rstripChars p l = l.take k := by
  have hs : (l.reverse.dropWhile p) <:+ l.reverse := List.dropWhile_suffix p
  have hp : (l.reverse.dropWhile p).reverse <+: l := by
    have h2 := List.reverse_prefix.mpr hs
    rwa [List.reverse_reverse] at h2
  refine ⟨(l.reverse.dropWhile p).reverse.length, ?_⟩
  unfold rstripChars
  exact List.prefix_iff_eq_take.mp hp

theorem noAdj_rstrip (l : List Char) (h : noAdjSpaceB l = true) :
    noAdjSpaceB (rstripChars isPySpace l) = true := by
  obtain ⟨k, hk⟩ := rstrip_take_eq isPySpace l
  rw [hk]
  exact noAdj_take l k h

theorem safeCore_props (s : String) :
    noAdjSpaceB (safeCore s) = true ∧
    (∀ c ∈ safeCore s, isPySpace c = true → c = ' ') ∧
    (∀ c ∈ safeCore s, c ≠ '/' ∧ c ≠ '\\' ∧ badNameChar c = false) := by
  unfold safeCore
  refine ⟨collapseWS_noAdj _, collapseWS_space_eq _, ?_⟩
  intro c hc
  rcases collapseWS_mem _ c hc with rfl | hcl
  · exact ⟨by decide, by decide, by decide⟩
  · rw [List.mem_filter] at hcl
    obtain ⟨hmem, hbad⟩ := hcl
    rw [List.mem_map] at hmem
    obtain ⟨x, hx, hfx⟩ := hmem
    refine ⟨?_, ?_, by simpa using hbad⟩
    · intro heq
      rw [heq] at hfx
      split_ifs at hfx with hxs
      · exact absurd hfx (by decide)
      · exact hxs (by simp [hfx])
    · intro heq
      rw [heq] at hfx
      split_ifs at hfx with hxs
      · exact absurd hfx (by decide)
      · exact hxs (by simp [hfx])

/- ============================================================
   Claim C10
   ============================================================ -/

/-- C10: for every input string and every length cap of at least two
characters (the call sites all use the default 80), safe_name returns a
nonempty name of at most max_len characters that contains no forward slash,
backslash or any of the characters : * ? quote < > |, in which every
whitespace character is a plain space and no two spaces are adjacent (every
whitespace run was collapsed to one space); and when sanitisation empties
the name the default cap yields the literal "untitled", so every directory
component and filename built from safe_name is a valid single path
segment. -/
theorem C10_safe_name :
    (∀ (s : String) (m : Nat), 2 ≤ m →
      safe_name s m ≠ "" ∧
      (safe_name s m).data.length ≤ m ∧
      (∀ c ∈ (safe_name s m).data, c ≠ '/' ∧ c ≠ '\\' ∧ badNameChar c = false) ∧
      noAdjSpaceB (safe_name s m).data = true ∧
      (∀ c ∈ (safe_name s m).data, isPySpace c = true → c = ' ')) ∧
    (∀ s : String, safeCore s = [] → safe_name s 80 = "untitled") := by
  have hdata : ∀ (s : String) (m : Nat), (safe_name s m).data =
      (if m < (if (safeCore s).isEmpty then "untitled".data else safeCore s).length
       then rstripChars isPySpace
         ((if (safeCore s).isEmpty then "untitled".data else safeCore s).take m)
       else (if (safeCore s).isEmpty then "untitled".data else safeCore s)) :=
    fun s m => rfl
  constructor
  · intro s m hm
    obtain ⟨hadj, hsp, hok⟩ := safeCore_props s
    set l1 := if (safeCore s).isEmpty then "untitled".data else safeCore s with hl1
    have h1adj : noAdjSpaceB l1 = true := by
      rw [hl1]
      split
      · decide
      · exact hadj
    have h1sp : ∀ c ∈ l1, isPySpace c = true → c = ' ' := by
      rw [hl1]
      split
      · decide
      · exact hsp
    have h1ok : ∀ c ∈ l1, c ≠ '/' ∧ c ≠ '\\' ∧ badNameChar c = false := by
      rw [hl1]
      split
      · decide
      · exact hok
    have h1ne : l1 ≠ [] := by
      rw [hl1]
      split
      · decide
      · rename_i hns
        intro h0
        exact hns (by rw [h0]; rfl)
    by_cases ht : m < l1.length
    · have hd2 : (safe_name s m).data = rstripChars isPySpace (l1.take m) := by
        rw [hdata s m, ← hl1, if_pos ht]
      have htake_adj : noAdjSpaceB (l1.take m) = true := noAdj_take l1 m h1adj
      have hlen_take : (l1.take m).length = m := by
        rw [List.length_take]
        omega
      have hnon : ∃ c ∈ l1.take m, isPySpace c = false :=
        noAdj_exists_nonspace _ htake_adj (by rw [hlen_take]; exact hm)
      refine ⟨?_, ?_, ?_, ?_, ?_⟩
      · intro h0
        apply rstrip_ne_nil hnon
        rw [← hd2, h0]
      · rw [hd2]
        calc (rstripChars isPySpace (l1.take m)).length ≤ (l1.take m).length :=
              rstrip_length_le _ _
          _ ≤ m := by rw [hlen_take]
      · intro c hc
        rw [hd2] at hc
        exact h1ok c (List.take_subset m l1 (rstrip_sub _ _ c hc))
      · rw [hd2]
        exact noAdj_rstrip _ htake_adj
      · intro c hc
        rw [hd2] at hc
        exact h1sp c (List.take_subset m l1 (rstrip_sub _ _ c hc))
    · have hd2 : (safe_name s m).data = l1 := by
        rw [hdata s m, ← hl1, if_neg ht]
      refine ⟨?_, ?_, ?_, ?_, ?_⟩
      · intro h0
        apply h1ne
        rw [← hd2, h0]
      · rw [hd2]
        omega
      · intro c hc
        rw [hd2] at hc
        exact h1ok c hc
      · rw [hd2]
        exact h1adj
      · intro c hc
        rw [hd2] at hc
        exact h1sp c hc
  · intro s hcore
    have h1 : (safeCore s).isEmpty = true := by rw [hcore]; rfl
    have hd2 : (safe_name s 80).data = "untitled".data := by
      rw [hdata s 80, h1]
      simp
    exact String.ext hd2

/-- C10 witness: both parts at concrete names, the hypotheses discharged by
computation. -/
theorem C10_safe_name_witness :
    safe_name "a  b:c" 80 ≠ "" ∧ safe_name "::" 80 = "untitled" :=
  ⟨(C10_safe_name.1 "a  b:c" 80 (by norm_num)).1,
   C10_safe_name.2 "::" (by decide)⟩
